import Mathlib

/-!
# Verification of `github.com/aslrousta/heap`

A shallow embedding of `heap.go`, a binary min-heap over key/value pairs with a
key-to-position lookup map, followed by theorems about it.

Conventions of the embedding:

* a Go slice is a `List`; `len(s)` is `List.length`, `s[:n]` is `List.take n`,
  `append(s, x)` is `s ++ [x]`;
* a Go `map[K]int` is an association list holding at most one entry per key
  (`mapGet`, `mapSet`, `mapDelete`);
* Go `int` positions are `Nat`: every position the code computes is a length, a
  position read from the map, `2*i+1`, `2*i+2`, or `(i-1)/2` with `i > 0`, and
  `size-1` is only used with `size > 0` or compared with a non-zero position;
* a method that can index a slice returns `Except Fault _`, where
  `Fault.indexOutOfRange` is the Go run-time panic; the two `for` loops take a
  fuel argument and report `Fault.outOfFuel` if it is exhausted;
* a method with result `(key, value, ok)` returns an `Option`, `none` standing
  for `ok = false`; every method also returns the heap it leaves behind.
-/

set_option autoImplicit false
set_option linter.unusedSectionVars false
set_option linter.unusedVariables false

namespace heap

/-! ## Data model -/

/-- The ways a modelled operation can fail to return normally. -/
inductive Fault where
  | indexOutOfRange
  | outOfFuel
  deriving DecidableEq, Repr

/-- `CompareFunc` compares a and b and returns 1, 0 or -1 (heap.go:3-5). -/
abbrev CompareFunc (T : Type) := T → T → Int

/-- The `item` struct (heap.go:7-10). -/
structure item (K V : Type) where
  Key : K
  Value : V
  deriving DecidableEq, Repr

/-- The `Heap` struct (heap.go:13-17). -/
structure Heap (K V : Type) where
  items : List (item K V)
  lookup : List (K × Nat)
  cmp : CompareFunc V

variable {K V : Type} [DecidableEq K]

/-! ## Go primitives -/

/-- Map read `m[key]` with the comma-ok form: `none` when the key is absent. -/
def mapGet : List (K × Nat) → K → Option Nat
  | [], _ => none
  | e :: m, key => if e.1 = key then some e.2 else mapGet m key

/-- Map deletion `delete(m, key)`. -/
def mapDelete (m : List (K × Nat)) (key : K) : List (K × Nat) :=
  m.filter (fun e => decide (e.1 ≠ key))

/-- Map write `m[key] = i`: the old entry of the key, if any, is replaced. -/
def mapSet (m : List (K × Nat)) (key : K) (i : Nat) : List (K × Nat) :=
  (key, i) :: mapDelete m key

/-- Slice read `s[i]`, which panics when `i` is out of range. -/
def getAt {α : Type} (s : List α) (i : Nat) : Except Fault α :=
  match s[i]? with
  | some x => .ok x
  | none => .error .indexOutOfRange

/-- Slice write `s[i] = x`, which panics when `i` is out of range. -/
def setAt {α : Type} (s : List α) (i : Nat) (x : α) : Except Fault (List α) :=
  if i < s.length then .ok (s.set i x) else .error .indexOutOfRange

/-! ## Operations -/

/-- `New` instantiates a new heap (heap.go:20-25). -/
def New (cmp : CompareFunc V) : Heap K V :=
  { items := [], lookup := [], cmp := cmp }

namespace Heap

/-- `Len` returns the number of items in the heap (heap.go:28-30). -/
def Len (h : Heap K V) : Nat :=
  h.items.length

/-- The swap of two positions with the two lookup writes that follow it, the
three statements shared by `siftUp` (heap.go:142-144) and `siftDown`
(heap.go:165-167). -/
def swapItems (h : Heap K V) (index parent : Nat) : Except Fault (Heap K V) := do
  let a ← getAt h.items parent
  let b ← getAt h.items index
  let items ← setAt h.items index a
  let items ← setAt items parent b
  let x ← getAt items index
  let lookup := mapSet h.lookup x.Key index
  let y ← getAt items parent
  let lookup := mapSet lookup y.Key parent
  pure { h with items := items, lookup := lookup }

/-- The loop of `siftUp` (heap.go:136-146). -/
def siftUpLoop (fuel : Nat) (h : Heap K V) (index : Nat) : Except Fault (Heap K V) :=
  match fuel with
  | 0 => if index > 0 then .error .outOfFuel else pure h
  | fuel + 1 =>
    if index > 0 then do
      let parent := (index - 1) / 2
      let p ← getAt h.items parent
      let c ← getAt h.items index
      if h.cmp p.Value c.Value ≤ 0 then
        pure h
      else do
        let h ← h.swapItems index parent
        siftUpLoop fuel h parent
    else pure h

/-- `siftUp` (heap.go:135-147); `index` iterations are enough because the
position strictly decreases. -/
def siftUp (h : Heap K V) (index : Nat) : Except Fault (Heap K V) :=
  siftUpLoop index h index

/-- The loop of `siftDown` (heap.go:151-169); `size` is the local computed
before the loop. -/
def siftDownLoop (fuel : Nat) (size : Nat) (h : Heap K V) (index : Nat) :
    Except Fault (Heap K V) :=
  match fuel with
  | 0 => if index < size then .error .outOfFuel else pure h
  | fuel + 1 =>
    if index < size then do
      let left := 2 * index + 1
      let right := 2 * index + 2
      let parent := index
      let parent ←
        if left < size then do
          let l ← getAt h.items left
          let p ← getAt h.items parent
          pure (if h.cmp l.Value p.Value < 0 then left else parent)
        else pure parent
      let parent ←
        if right < size then do
          let r ← getAt h.items right
          let p ← getAt h.items parent
          pure (if h.cmp r.Value p.Value < 0 then right else parent)
        else pure parent
      if parent = index then
        pure h
      else do
        let h ← h.swapItems index parent
        siftDownLoop fuel size h parent
    else pure h

/-- `siftDown` (heap.go:149-170); `size` iterations are enough because the
position strictly increases and stays below `size`. -/
def siftDown (h : Heap K V) (index : Nat) : Except Fault (Heap K V) :=
  siftDownLoop h.items.length h.items.length h index

/-- `Peek` returns the minimum key-value pair (heap.go:48-53). -/
def Peek (h : Heap K V) : Except Fault (Heap K V × Option (K × V)) :=
  if h.items.length = 0 then
    pure (h, none)
  else do
    let k ← getAt h.items 0
    let v ← getAt h.items 0
    pure (h, some (k.Key, v.Value))

/-- `Pop` removes the minimum key-value pair and returns it (heap.go:56-75). -/
def Pop (h : Heap K V) : Except Fault (Heap K V × Option (K × V)) :=
  let size := h.items.length
  if size = 0 then
    pure (h, none)
  else do
    let first ← getAt h.items 0
    let lookup := mapDelete h.lookup first.Key
    if size = 1 then
      pure ({ h with items := h.items.take 0, lookup := lookup }, some (first.Key, first.Value))
    else do
      let last ← getAt h.items (size - 1)
      let items ← setAt h.items 0 last
      let items := items.take (size - 1)
      let root ← getAt items 0
      let lookup := mapSet lookup root.Key 0
      let h ← siftDown { h with items := items, lookup := lookup } 0
      pure (h, some (first.Key, first.Value))

/-- `Has` returns true if a key exists in the heap (heap.go:78-81). -/
def Has (h : Heap K V) (key : K) : Heap K V × Bool :=
  (h, (mapGet h.lookup key).isSome)

/-- `Get` returns a value given its key (heap.go:84-89). -/
def Get (h : Heap K V) (key : K) : Except Fault (Heap K V × Option V) :=
  match mapGet h.lookup key with
  | some index => do
    let it ← getAt h.items index
    pure (h, some it.Value)
  | none => pure (h, none)

/-- `Remove` deletes a value given its key (heap.go:92-125). -/
def Remove (h : Heap K V) (key : K) : Except Fault (Heap K V × Option V) :=
  match mapGet h.lookup key with
  | none => pure (h, none)
  | some index =>
    if index = 0 then do
      let (h, r) ← h.Pop
      pure (h, r.map Prod.snd)
    else do
      let lookup := mapDelete h.lookup key
      let size := h.items.length
      if index = size - 1 then do
        let last ← getAt h.items (size - 1)
        pure ({ h with items := h.items.take (size - 1), lookup := lookup }, some last.Value)
      else do
        let it ← getAt h.items index
        let last ← getAt h.items (size - 1)
        let items ← setAt h.items index last
        let items := items.take (size - 1)
        let moved ← getAt items index
        let lookup := mapSet lookup moved.Key index
        let h : Heap K V := { h with items := items, lookup := lookup }
        let parent := (index - 1) / 2
        let p ← getAt h.items parent
        let c ← getAt h.items index
        let h ← if h.cmp p.Value c.Value > 0 then h.siftUp index else h.siftDown index
        pure (h, some it.Value)

/-- Lines 41-44 of `Push`: append the pair, record its position, sift it up. -/
def pushBack (h : Heap K V) (key : K) (value : V) : Except Fault (Heap K V) :=
  let items := h.items ++ [{ Key := key, Value := value }]
  let size := items.length
  let lookup := mapSet h.lookup key (size - 1)
  siftUp { h with items := items, lookup := lookup } (size - 1)

/-- `Push` adds a new key-value pair to the heap (heap.go:33-45). -/
def Push (h : Heap K V) (key : K) (value : V) : Except Fault (Heap K V) :=
  match mapGet h.lookup key with
  | some index => do
    let it ← getAt h.items index
    if h.cmp it.Value value = 0 then
      pure h
    else do
      let (h, _) ← h.Remove key
      h.pushBack key value
  | none => h.pushBack key value

/-- `Clear` removes all items in the heap (heap.go:128-133). -/
def Clear (h : Heap K V) : Heap K V :=
  if h.items.length > 0 then
    { h with items := h.items.take 0, lookup := [] }
  else h

end Heap

/-- The comparator used by every test of heap_test.go (lines 20-28). -/
def intCmp (a b : Int) : Int :=
  if a > b then 1 else if a < b then -1 else 0

/-- The loop `for h.Len() > 0 { h.Pop() }` of heap_test.go:53-59, collecting
what each `Pop` returned. -/
def drain (fuel : Nat) (h : Heap K V) : Except Fault (Heap K V × List (Option (K × V))) :=
  match fuel with
  | 0 => if h.Len > 0 then .error .outOfFuel else pure (h, [])
  | fuel + 1 =>
    if h.Len > 0 then do
      let (h, r) ← h.Pop
      let (h, rs) ← drain fuel h
      pure (h, r :: rs)
    else pure (h, [])

/-- Pushes a list of pairs in order, as the loops of heap_test.go:30-32 do. -/
def pushAll (h : Heap K V) : List (K × V) → Except Fault (Heap K V)
  | [] => pure h
  | (k, v) :: rest => do
    let h ← h.Push k v
    pushAll h rest

/-! ## Invariants of spec section 3 and the comparator contract -/

/-- The comparator contract: `cmp a b` and `cmp b a` have opposite signs, and
"not greater" is transitive. Totality is a consequence of the first field. -/
structure TotalPreorder (cmp : CompareFunc V) : Prop where
  opposite : ∀ a b, 0 < cmp a b ↔ cmp b a < 0
  trans : ∀ a b c, cmp a b ≤ 0 → cmp b c ≤ 0 → cmp a c ≤ 0

/-- Invariant 1, heap order: for every non-root index `i`,
`cmp(items[(i-1)/2].Value, items[i].Value)` is not greater. -/
def HeapOrder (h : Heap K V) : Prop :=
  ∀ i : Fin h.items.length, 0 < i.val →
    h.cmp (h.items.get ⟨(i.val - 1) / 2,
        Nat.lt_of_le_of_lt (Nat.le_trans (Nat.div_le_self _ _) (Nat.sub_le _ _)) i.isLt⟩).Value
      (h.items.get i).Value ≤ 0

/-- Invariant 2, index consistency: the lookup map has one entry per key, every
entry `(k, j)` points at a position `j` holding key `k`, and every position is
the entry of the key it holds. -/
def IndexConsistent (h : Heap K V) : Prop :=
  (h.lookup.map Prod.fst).Nodup ∧
  (∀ e ∈ h.lookup, (h.items[e.2]?).map item.Key = some e.1) ∧
  (∀ j : Fin h.items.length, mapGet h.lookup (h.items.get j).Key = some j.val)

/-- Invariant 3, size agreement: the number of lookup entries is `len(items)`. -/
def SizeAgree (h : Heap K V) : Prop :=
  h.lookup.length = h.items.length

/-- The three invariants of spec section 3 together. -/
def Invariants (h : Heap K V) : Prop :=
  HeapOrder h ∧ IndexConsistent h ∧ SizeAgree h

instance (h : Heap K V) : Decidable (HeapOrder h) := by
  unfold HeapOrder; infer_instance

instance (h : Heap K V) : Decidable (IndexConsistent h) := by
  unfold IndexConsistent; infer_instance

instance (h : Heap K V) : Decidable (SizeAgree h) := by
  unfold SizeAgree; infer_instance

instance (h : Heap K V) : Decidable (Invariants h) := by
  unfold Invariants; infer_instance

/-- One public call on a heap. -/
inductive Call (K V : Type) where
  | push (key : K) (value : V)
  | pop
  | peek
  | has (key : K)
  | get (key : K)
  | remove (key : K)
  | clear

/-- The heap a public call leaves behind. -/
def Call.run (h : Heap K V) : Call K V → Except Fault (Heap K V)
  | .push key value => h.Push key value
  | .pop => h.Pop.map Prod.fst
  | .peek => h.Peek.map Prod.fst
  | .has key => pure (h.Has key).1
  | .get key => (h.Get key).map Prod.fst
  | .remove key => (h.Remove key).map Prod.fst
  | .clear => pure h.Clear

/-- The heaps reachable from `New cmp` by finitely many public calls. -/
inductive Reachable (cmp : CompareFunc V) : Heap K V → Prop where
  | new : Reachable cmp (New cmp)
  | step (h h1 : Heap K V) (c : Call K V) : Reachable cmp h → c.run h = .ok h1 → Reachable cmp h1

/-! ## Working forms of the invariants -/

/-- Index consistency stated on the two fields: one lookup entry per key, and
`lookup[k] = j` exactly when position `j` holds key `k`. -/
def Consistent (items : List (item K V)) (lookup : List (K × Nat)) : Prop :=
  (lookup.map Prod.fst).Nodup ∧
  ∀ k j, mapGet lookup k = some j ↔ ∃ it, items[j]? = some it ∧ it.Key = k

/-- The first entry, if both exist, is not greater than the second. -/
def LeOpt (cmp : CompareFunc V) (a b : Option (item K V)) : Prop :=
  ∀ x y, a = some x → b = some y → cmp x.Value y.Value ≤ 0

/-- Heap order of a slice: every position is not smaller than its parent. -/
def Ordered (cmp : CompareFunc V) (items : List (item K V)) : Prop :=
  ∀ j, 0 < j → LeOpt cmp items[(j - 1) / 2]? items[j]?

/-- Heap order everywhere except possibly between `i` and its parent, whose
value is not greater than those of the children of `i`: what `siftUp` repairs. -/
def UpInv (cmp : CompareFunc V) (items : List (item K V)) (i : Nat) : Prop :=
  (∀ j, 0 < j → j ≠ i → LeOpt cmp items[(j - 1) / 2]? items[j]?) ∧
  (∀ c, 0 < i → 0 < c → (c - 1) / 2 = i → LeOpt cmp items[(i - 1) / 2]? items[c]?)

/-- Heap order everywhere except possibly between `i` and its children, whose
values are not smaller than the parent of `i`: what `siftDown` repairs. -/
def DownInv (cmp : CompareFunc V) (items : List (item K V)) (i : Nat) : Prop :=
  (∀ j, 0 < j → (j - 1) / 2 ≠ i → LeOpt cmp items[(j - 1) / 2]? items[j]?) ∧
  (∀ c, 0 < i → 0 < c → (c - 1) / 2 = i → LeOpt cmp items[(i - 1) / 2]? items[c]?)

/-- The `(key, value)` pair an `item` stands for. -/
def item.pair (it : item K V) : K × V :=
  (it.Key, it.Value)

/-- The loop `for key := range records { h.Remove(key) }` of heap_test.go:79-84
over a given order of the keys, collecting what each `Remove` returned. -/
def removeAll (h : Heap K V) : List K → Except Fault (Heap K V × List (Option V))
  | [] => pure (h, [])
  | k :: rest => do
    let (h, r) ← h.Remove k
    let (h, rs) ← removeAll h rest
    pure (h, r :: rs)

/-- The selection made by one iteration of the loop of `siftDown`
(heap.go:152-160): the value of `parent` after the two `if` statements. -/
def Heap.siftDownSelect (size : Nat) (h : Heap K V) (index : Nat) : Except Fault Nat := do
  let left := 2 * index + 1
  let right := 2 * index + 2
  let parent := index
  let parent ←
    if left < size then do
      let l ← getAt h.items left
      let p ← getAt h.items parent
      pure (if h.cmp l.Value p.Value < 0 then left else parent)
    else pure parent
  let parent ←
    if right < size then do
      let r ← getAt h.items right
      let p ← getAt h.items parent
      pure (if h.cmp r.Value p.Value < 0 then right else parent)
    else pure parent
  pure parent

/-- The spec's reading of `Push` on a present key with a different value (spec
section 4.1, "logically remove the old entry, then insert fresh"): `Remove`
followed by `Push`. -/
def Heap.removeThenPush (h : Heap K V) (key : K) (value : V) : Except Fault (Heap K V) := do
  let (h1, _) ← h.Remove key
  h1.Push key value

/-- The result of a modelled call is not the exhaustion of a loop budget: the
call returned normally or stopped with a run-time panic. -/
def Finishes {α : Type} (r : Except Fault α) : Prop :=
  r ≠ .error .outOfFuel

/-! ## Examples -/

/-- The heap of the example of spec section 8: `a:5`, `b:1`, `c:3` pushed in
this order into a new heap with the integer comparator. -/
def exABC : Heap String Int :=
  { items := [⟨"b", 1⟩, ⟨"a", 5⟩, ⟨"c", 3⟩]
    lookup := [("c", 2), ("b", 0), ("a", 1)]
    cmp := intCmp }

/-- A heap of seven pairs, `a:1`, `b:10`, `c:2`, `d:11`, `e:12`, `f:3`, `g:4`
pushed in this order; removing `d` relocates `g:4` below a greater parent. -/
def exSeven : Heap String Int :=
  { items := [⟨"a", 1⟩, ⟨"b", 10⟩, ⟨"c", 2⟩, ⟨"d", 11⟩, ⟨"e", 12⟩, ⟨"f", 3⟩, ⟨"g", 4⟩]
    lookup := [("g", 6), ("f", 5), ("e", 4), ("d", 3), ("c", 2), ("b", 1), ("a", 0)]
    cmp := intCmp }

/-- A comparator that looks only at the tens of an integer: a consistent total
preorder under which different values, such as 10 and 11, compare equal. -/
def tensCmp (a b : Int) : Int :=
  intCmp (a / 10) (b / 10)

/-- The heap reached by `Push("a", 10)` on a new heap with `tensCmp`. -/
def exTens : Heap String Int :=
  { items := [⟨"a", 10⟩]
    lookup := [("a", 0)]
    cmp := tensCmp }

/-- A comparator that is not a preorder: it calls every value greater than
every value, itself included. -/
def alwaysGreater (_ _ : Int) : Int :=
  1

/-- The heap reached by `Push("a", 1)` and `Push("b", 2)` on a new heap with
`alwaysGreater`. -/
def exBad : Heap String Int :=
  { items := [⟨"b", 2⟩, ⟨"a", 1⟩]
    lookup := [("b", 0), ("a", 1)]
    cmp := alwaysGreater }

/-- A heap under `tensCmp` whose root has two smaller children that compare
equal to each other. -/
def exTie : Heap String Int :=
  { items := [⟨"a", 25⟩, ⟨"b", 11⟩, ⟨"c", 12⟩]
    lookup := [("a", 0), ("b", 1), ("c", 2)]
    cmp := tensCmp }

/-! ## Basic facts about the primitives -/

section Basics

variable {α β : Type}

@[simp] theorem ok_bind (a : α) (f : α → Except Fault β) :
    (Except.ok a >>= f) = f a := rfl

@[simp] theorem error_bind (e : Fault) (f : α → Except Fault β) :
    ((Except.error e : Except Fault α) >>= f) = Except.error e := rfl

@[simp] theorem pure_eq_ok (a : α) : (pure a : Except Fault α) = Except.ok a := rfl

@[simp] theorem map_ok (f : α → β) (a : α) :
    Except.map f (Except.ok a : Except Fault α) = Except.ok (f a) := rfl

@[simp] theorem map_error (f : α → β) (e : Fault) :
    Except.map f (Except.error e : Except Fault α) = Except.error e := rfl

theorem getAt_eq_ok {s : List α} {i : Nat} {x : α} (hx : s[i]? = some x) :
    getAt s i = .ok x := by
  simp [getAt, hx]

theorem getAt_ok_iff {s : List α} {i : Nat} {x : α} :
    getAt s i = .ok x ↔ s[i]? = some x := by
  unfold getAt
  cases hs : s[i]? <;> simp

theorem setAt_eq_ok {s : List α} {i : Nat} (x : α) (hi : i < s.length) :
    setAt s i x = .ok (s.set i x) := by
  simp [setAt, hi]

theorem getElem?_isSome_of_lt {s : List α} {i : Nat} (hi : i < s.length) :
    ∃ x, s[i]? = some x :=
  ⟨s[i], List.getElem?_eq_getElem hi⟩

theorem lt_of_getElem?_eq_some {s : List α} {i : Nat} {x : α} (hx : s[i]? = some x) :
    i < s.length := by
  by_contra hn
  rw [List.getElem?_eq_none (Nat.le_of_not_lt hn)] at hx
  cases hx

end Basics

section MapFacts

theorem mapGet_mapDelete (m : List (K × Nat)) (k k1 : K) :
    mapGet (mapDelete m k) k1 = if k = k1 then none else mapGet m k1 := by
  induction m with
  | nil => simp [mapDelete, mapGet]
  | cons e m ih =>
    unfold mapDelete at ih ⊢
    by_cases he : e.1 = k
    · by_cases hk : k = k1
      · simp [List.filter_cons, he, hk] at ih ⊢
        simpa [hk] using ih
      · have : ¬ e.1 = k1 := by rw [he]; exact hk
        simp [List.filter_cons, he, hk, mapGet, this] at ih ⊢
        exact ih
    · by_cases hk : k = k1
      · have : ¬ e.1 = k1 := by rw [← hk]; exact he
        simp [List.filter_cons, he, hk, mapGet, this] at ih ⊢
        simpa [hk] using ih
      · simp [List.filter_cons, he, hk, mapGet] at ih ⊢
        rw [ih]

theorem mapGet_mapSet (m : List (K × Nat)) (k k1 : K) (i : Nat) :
    mapGet (mapSet m k i) k1 = if k = k1 then some i else mapGet m k1 := by
  unfold mapSet
  by_cases hk : k = k1
  · simp [mapGet, hk]
  · simp [mapGet, hk, mapGet_mapDelete]

theorem mem_of_mapGet {m : List (K × Nat)} {k : K} {j : Nat} (hg : mapGet m k = some j) :
    (k, j) ∈ m := by
  induction m with
  | nil => simp [mapGet] at hg
  | cons e m ih =>
    unfold mapGet at hg
    by_cases he : e.1 = k
    · simp [he] at hg
      have : e = (k, j) := Prod.ext he hg
      simp [this]
    · simp [he] at hg
      exact List.mem_cons_of_mem _ (ih hg)

theorem mapGet_of_mem {m : List (K × Nat)} (hn : (m.map Prod.fst).Nodup) {k : K} {j : Nat}
    (hm : (k, j) ∈ m) : mapGet m k = some j := by
  induction m with
  | nil => simp at hm
  | cons e m ih =>
    simp only [List.map_cons, List.nodup_cons] at hn
    unfold mapGet
    rcases List.mem_cons.1 hm with he | hm1
    · simp [← he]
    · have : e.1 ≠ k := by
        intro hek
        apply hn.1
        rw [hek]
        exact List.mem_map.2 ⟨(k, j), hm1, rfl⟩
      simp [this, ih hn.2 hm1]

theorem mem_keys_iff {m : List (K × Nat)} {k : K} :
    k ∈ m.map Prod.fst ↔ ∃ j, mapGet m k = some j := by
  constructor
  · intro hk
    induction m with
    | nil => simp at hk
    | cons e m ih =>
      unfold mapGet
      by_cases he : e.1 = k
      · exact ⟨e.2, by simp [he]⟩
      · simp only [List.map_cons, List.mem_cons] at hk
        rcases hk with hk | hk
        · exact absurd hk.symm he
        · simpa [he] using ih hk
  · rintro ⟨j, hj⟩
    exact List.mem_map.2 ⟨(k, j), mem_of_mapGet hj, rfl⟩

theorem nodup_mapDelete {m : List (K × Nat)} (hn : (m.map Prod.fst).Nodup) (k : K) :
    ((mapDelete m k).map Prod.fst).Nodup := by
  unfold mapDelete
  exact hn.sublist ((List.filter_sublist m).map Prod.fst)

theorem nodup_mapSet {m : List (K × Nat)} (hn : (m.map Prod.fst).Nodup) (k : K) (i : Nat) :
    ((mapSet m k i).map Prod.fst).Nodup := by
  unfold mapSet
  simp only [List.map_cons, List.nodup_cons]
  refine ⟨?_, nodup_mapDelete hn k⟩
  intro hk
  obtain ⟨j, hj⟩ := mem_keys_iff.1 hk
  simp [mapGet_mapDelete] at hj

end MapFacts

/-! ## Index consistency in working form -/

theorem indexConsistent_iff (h : Heap K V) :
    IndexConsistent h ↔ Consistent h.items h.lookup := by
  unfold IndexConsistent Consistent
  constructor
  · rintro ⟨hn, h1, h2⟩
    refine ⟨hn, fun k j => ⟨fun hg => ?_, ?_⟩⟩
    · have := h1 (k, j) (mem_of_mapGet hg)
      simp only [Option.map_eq_some'] at this
      exact this
    · rintro ⟨it, hit, hk⟩
      have hj := lt_of_getElem?_eq_some hit
      have := h2 ⟨j, hj⟩
      rw [List.getElem?_eq_getElem hj] at hit
      simp only [List.get_eq_getElem] at this
      cases hit
      rw [← hk]; exact this
  · rintro ⟨hn, hC⟩
    refine ⟨hn, fun e he => ?_, fun j => ?_⟩
    · have := (hC e.1 e.2).1 (mapGet_of_mem hn he)
      simp only [Option.map_eq_some']
      exact this
    · exact (hC _ _).2 ⟨_, List.getElem?_eq_getElem j.isLt, rfl⟩

namespace Consistent

variable {items : List (item K V)} {lookup : List (K × Nat)}

theorem inj (C : Consistent items lookup) {i j : Nat} {a b : item K V}
    (ha : items[i]? = some a) (hb : items[j]? = some b) (hk : a.Key = b.Key) : i = j := by
  have h1 := (C.2 a.Key i).2 ⟨a, ha, rfl⟩
  have h2 := (C.2 a.Key j).2 ⟨b, hb, hk.symm⟩
  rw [h1] at h2
  exact Option.some.inj h2

theorem get_of (C : Consistent items lookup) {j : Nat} {it : item K V}
    (hit : items[j]? = some it) : mapGet lookup it.Key = some j :=
  (C.2 _ _).2 ⟨it, hit, rfl⟩

theorem keys_nodup (C : Consistent items lookup) : (items.map item.Key).Nodup := by
  rw [List.nodup_iff_getElem?_ne_getElem?]
  intro i j hij hj heq
  rw [List.length_map] at hj
  obtain ⟨b, hb⟩ := getElem?_isSome_of_lt hj
  obtain ⟨a, ha⟩ := getElem?_isSome_of_lt (Nat.lt_trans hij hj)
  simp only [List.getElem?_map, ha, hb, Option.map_some'] at heq
  have := C.inj ha hb (Option.some.inj heq)
  omega

theorem items_nodup (C : Consistent items lookup) : items.Nodup :=
  List.Nodup.of_map _ C.keys_nodup

theorem mem_keys (C : Consistent items lookup) (k : K) :
    k ∈ lookup.map Prod.fst ↔ k ∈ items.map item.Key := by
  rw [mem_keys_iff]
  constructor
  · rintro ⟨j, hj⟩
    obtain ⟨it, hit, hk⟩ := (C.2 k j).1 hj
    exact List.mem_map.2 ⟨it, List.mem_iff_getElem?.2 ⟨j, hit⟩, hk⟩
  · intro hk
    obtain ⟨it, hit, hk⟩ := List.mem_map.1 hk
    obtain ⟨j, hj⟩ := List.mem_iff_getElem?.1 hit
    exact ⟨j, (C.2 k j).2 ⟨it, hj, hk⟩⟩

theorem length_eq (C : Consistent items lookup) : lookup.length = items.length := by
  have hp : (lookup.map Prod.fst).Perm (items.map item.Key) :=
    (List.perm_ext_iff_of_nodup C.1 C.keys_nodup).2 C.mem_keys
  simpa using hp.length_eq

/-- A stored pair determines what the lookup map says about its key. -/
theorem get_iff_mem (C : Consistent items lookup) (k : K) (v : V) :
    (∃ j, mapGet lookup k = some j ∧ items[j]? = some ⟨k, v⟩) ↔ (⟨k, v⟩ : item K V) ∈ items := by
  constructor
  · rintro ⟨j, _, hj⟩
    exact List.mem_iff_getElem?.2 ⟨j, hj⟩
  · intro hm
    obtain ⟨j, hj⟩ := List.mem_iff_getElem?.1 hm
    exact ⟨j, C.get_of hj, hj⟩

theorem nil : Consistent ([] : List (item K V)) ([] : List (K × Nat)) := by
  refine ⟨by simp, fun k j => ?_⟩
  simp [mapGet]

/-- Swapping two positions and rewriting their two lookup entries. -/
theorem swap (C : Consistent items lookup) {i j : Nat} {a b : item K V}
    (hi : items[i]? = some b) (hj : items[j]? = some a) (hij : i ≠ j) :
    Consistent ((items.set i a).set j b) (mapSet (mapSet lookup a.Key i) b.Key j) := by
  refine ⟨nodup_mapSet (nodup_mapSet C.1 _ _) _ _, fun k n => ?_⟩
  have hil := lt_of_getElem?_eq_some hi
  have hjl := lt_of_getElem?_eq_some hj
  have hab : a.Key ≠ b.Key := fun hk => hij (C.inj hj hi hk).symm
  rw [mapGet_mapSet, mapGet_mapSet, List.getElem?_set, List.getElem?_set, List.length_set]
  have hC := C.2 k n
  by_cases h3 : j = n
  · subst h3
    by_cases h1 : b.Key = k
    · simp [h1, hjl]
    · have h2 : ¬ a.Key = k ∨ a.Key = k := by tauto
      rcases h2 with h2 | h2
      · simp only [h1, h2, if_false, if_true, hjl, hC, hj]
        constructor
        · rintro ⟨it, hit, hk⟩
          cases hit; exact absurd hk h2
        · rintro ⟨it, hit, hk⟩
          cases hit; exact absurd hk h1
      · simp only [h1, h2, if_false, if_true, hjl]
        constructor
        · intro h; exact absurd (Option.some.inj h) hij
        · rintro ⟨it, hit, hk⟩
          cases hit; exact absurd hk h1
  · by_cases h4 : i = n
    · subst h4
      by_cases h1 : b.Key = k
      · have h2 : ¬ a.Key = k := fun h2 => hab (h2.trans h1.symm)
        simp only [h1, if_true, h3, if_false, hil]
        constructor
        · intro h; exact absurd (Option.some.inj h) h3
        · rintro ⟨it, hit, hk⟩
          cases hit; exact absurd hk h2
      · by_cases h2 : a.Key = k
        · simp [h1, h2, h3, hil]
        · simp only [h1, h2, if_false, h3, if_true, hil, hC, hi]
          constructor
          · rintro ⟨it, hit, hk⟩
            cases hit; exact absurd hk h1
          · rintro ⟨it, hit, hk⟩
            cases hit; exact absurd hk h2
    · simp only [h3, h4, if_false]
      by_cases h1 : b.Key = k
      · simp only [h1, if_true]
        constructor
        · intro h; exact absurd (Option.some.inj h) h3
        · rintro ⟨it, hit, hk⟩
          exact absurd (C.inj hi hit (h1.trans hk.symm)) h4
      · by_cases h2 : a.Key = k
        · simp only [h1, h2, if_false, if_true]
          constructor
          · intro h; exact absurd (Option.some.inj h) h4
          · rintro ⟨it, hit, hk⟩
            exact absurd (C.inj hj hit (h2.trans hk.symm)) h3
        · simp only [h1, h2, if_false]
          exact hC

/-- Dropping the last position together with the lookup entry of its key. -/
theorem dropLast (C : Consistent items lookup) {last : item K V}
    (hl : items[items.length - 1]? = some last) :
    Consistent (items.take (items.length - 1)) (mapDelete lookup last.Key) := by
  refine ⟨nodup_mapDelete C.1 _, fun k n => ?_⟩
  rw [mapGet_mapDelete, List.getElem?_take]
  have hC := C.2 k n
  by_cases h1 : last.Key = k
  · simp only [h1, if_true]
    constructor
    · intro h; cases h
    · rintro ⟨it, hit, hk⟩
      by_cases hn : n < items.length - 1
      · simp only [hn, if_true] at hit
        have := C.inj hl hit (h1.trans hk.symm)
        omega
      · simp [hn] at hit
  · simp only [h1, if_false, hC]
    by_cases hn : n < items.length - 1
    · simp [hn]
    · simp only [hn, if_false]
      constructor
      · rintro ⟨it, hit, hk⟩
        have hlt := lt_of_getElem?_eq_some hit
        have : n = items.length - 1 := by omega
        subst this
        rw [hl] at hit
        cases hit; exact absurd hk h1
      · rintro ⟨it, hit, _⟩
        cases hit

/-- Moving the last pair into an earlier position whose pair is removed. -/
theorem moveLast (C : Consistent items lookup) {index : Nat} {it last : item K V}
    (hi : items[index]? = some it) (hl : items[items.length - 1]? = some last)
    (hlt : index < items.length - 1) :
    Consistent ((items.set index last).take (items.length - 1))
      (mapSet (mapDelete lookup it.Key) last.Key index) := by
  refine ⟨nodup_mapSet (nodup_mapDelete C.1 _) _ _, fun k n => ?_⟩
  have hne : it.Key ≠ last.Key := fun hk => by
    have := C.inj hi hl hk
    omega
  have hil : index < items.length := by omega
  rw [mapGet_mapSet, mapGet_mapDelete, List.getElem?_take, List.getElem?_set]
  have hC := C.2 k n
  by_cases h4 : index = n
  · subst h4
    by_cases h1 : last.Key = k
    · simp [h1, hlt, hil]
    · simp only [h1, if_false, hlt, if_true, hil]
      constructor
      · intro h
        by_cases h2 : it.Key = k
        · simp [h2] at h
        · simp only [h2, if_false] at h
          obtain ⟨x, hx, hk⟩ := hC.1 h
          rw [hi] at hx
          cases hx; exact absurd hk h2
      · rintro ⟨x, hx, hk⟩
        cases hx; exact absurd hk h1
  · simp only [h4, if_false]
    by_cases h1 : last.Key = k
    · simp only [h1, if_true]
      constructor
      · intro h; exact absurd (Option.some.inj h) h4
      · rintro ⟨x, hx, hk⟩
        by_cases hn : n < items.length - 1
        · simp only [hn, if_true] at hx
          have := C.inj hl hx (h1.trans hk.symm)
          omega
        · simp [hn] at hx
    · simp only [h1, if_false]
      by_cases h2 : it.Key = k
      · simp only [h2, if_true]
        constructor
        · intro h; cases h
        · rintro ⟨x, hx, hk⟩
          by_cases hn : n < items.length - 1
          · simp only [hn, if_true] at hx
            exact absurd (C.inj hi hx (h2.trans hk.symm)) h4
          · simp [hn] at hx
      · simp only [h2, if_false, hC]
        by_cases hn : n < items.length - 1
        · simp [hn]
        · simp only [hn, if_false]
          constructor
          · rintro ⟨x, hx, hk⟩
            have hlt1 := lt_of_getElem?_eq_some hx
            have : n = items.length - 1 := by omega
            subst this
            rw [hl] at hx
            cases hx; exact absurd hk h1
          · rintro ⟨x, hx, _⟩
            cases hx

/-- Appending a pair whose key is absent from the lookup map. -/
theorem append (C : Consistent items lookup) {key : K} (value : V)
    (hk : mapGet lookup key = none) :
    Consistent (items ++ [⟨key, value⟩]) (mapSet lookup key items.length) := by
  refine ⟨nodup_mapSet C.1 _ _, fun k n => ?_⟩
  rw [mapGet_mapSet, List.getElem?_append]
  have hC := C.2 k n
  by_cases h1 : key = k
  · subst h1
    simp only [if_true]
    constructor
    · intro h
      have : n = items.length := (Option.some.inj h).symm
      subst this
      simp
    · rintro ⟨x, hx, hxk⟩
      by_cases hn : n < items.length
      · simp only [hn, if_true] at hx
        have := (C.2 key n).2 ⟨x, hx, hxk⟩
        rw [hk] at this
        cases this
      · simp only [hn, if_false] at hx
        have h0 := lt_of_getElem?_eq_some hx
        simp only [List.length_singleton] at h0
        congr 1
        omega
  · simp only [h1, if_false, hC]
    by_cases hn : n < items.length
    · simp [hn]
    · simp only [hn, if_false]
      constructor
      · rintro ⟨x, hx, _⟩
        have := lt_of_getElem?_eq_some hx
        omega
      · rintro ⟨x, hx, hxk⟩
        have h0 := lt_of_getElem?_eq_some hx
        simp only [List.length_singleton] at h0
        have : n - items.length = 0 := by omega
        rw [this] at hx
        simp only [List.getElem?_cons_zero, Option.some.injEq] at hx
        subst hx
        exact absurd hxk h1

end Consistent

/-! ## Heap order in working form -/

theorem heapOrder_iff (h : Heap K V) : HeapOrder h ↔ Ordered h.cmp h.items := by
  unfold HeapOrder Ordered LeOpt
  constructor
  · intro hh j hj x y hx hy
    have hjl := lt_of_getElem?_eq_some hy
    have hpl := lt_of_getElem?_eq_some hx
    have := hh ⟨j, hjl⟩ hj
    rw [List.getElem?_eq_getElem hjl] at hy
    rw [List.getElem?_eq_getElem hpl] at hx
    cases hx; cases hy
    simpa using this
  · intro hh i hi
    have hpl : (i.val - 1) / 2 < h.items.length :=
      Nat.lt_of_le_of_lt (Nat.le_trans (Nat.div_le_self _ _) (Nat.sub_le _ _)) i.isLt
    exact hh i.val hi _ _ (List.getElem?_eq_getElem hpl) (List.getElem?_eq_getElem i.isLt)

namespace TotalPreorder

variable {cmp : CompareFunc V}

theorem le_of_not_le (tp : TotalPreorder cmp) {a b : V} (hn : ¬ cmp a b ≤ 0) : cmp b a ≤ 0 := by
  have := (tp.opposite a b).1 (by omega)
  omega

theorem le_of_not_lt (tp : TotalPreorder cmp) {a b : V} (hn : ¬ cmp a b < 0) : cmp b a ≤ 0 := by
  by_contra hc
  have := (tp.opposite b a).1 (by omega)
  exact hn this

theorem refl (tp : TotalPreorder cmp) (a : V) : cmp a a ≤ 0 := by
  by_contra hc
  have := (tp.opposite a a).1 (by omega)
  omega

theorem eq_zero_symm (tp : TotalPreorder cmp) {a b : V} (hz : cmp a b = 0) : cmp b a = 0 := by
  have h1 := tp.opposite a b
  have h2 := tp.opposite b a
  omega

end TotalPreorder

theorem getElem?_swap {α : Type} {s : List α} {i j : Nat} {a b : α}
    (hi : s[i]? = some b) (hj : s[j]? = some a) (n : Nat) :
    ((s.set i a).set j b)[n]? = if n = j then some b else if n = i then some a else s[n]? := by
  have hil := lt_of_getElem?_eq_some hi
  have hjl := lt_of_getElem?_eq_some hj
  rw [List.getElem?_set, List.getElem?_set, List.length_set]
  by_cases h1 : n = j
  · subst h1; simp [hjl]
  · have h1a : ¬ j = n := fun e => h1 e.symm
    by_cases h2 : n = i
    · subst h2; simp [h1, h1a, hil]
    · have h2a : ¬ i = n := fun e => h2 e.symm
      simp [h1, h1a, h2, h2a]

theorem Consistent.swap_perm {items : List (item K V)} {lookup : List (K × Nat)}
    (C : Consistent items lookup) {i j : Nat} {a b : item K V}
    (hi : items[i]? = some b) (hj : items[j]? = some a) (hij : i ≠ j) :
    ((items.set i a).set j b).Perm items := by
  rw [List.perm_ext_iff_of_nodup (C.swap hi hj hij).items_nodup C.items_nodup]
  intro x
  simp only [List.mem_iff_getElem?, getElem?_swap hi hj]
  constructor
  · rintro ⟨n, hn⟩
    by_cases h1 : n = j
    · simp only [h1, if_true] at hn
      exact ⟨i, by rw [hi, hn]⟩
    · by_cases h2 : n = i
      · simp only [h1, h2, if_false, if_true] at hn
        exact ⟨j, by rw [hj]; simpa [hij] using hn⟩
      · simp only [h1, h2, if_false] at hn
        exact ⟨n, hn⟩
  · rintro ⟨n, hn⟩
    by_cases h1 : n = j
    · subst h1
      refine ⟨i, ?_⟩
      rw [hj] at hn
      simp [hij, hn]
    · by_cases h2 : n = i
      · subst h2
        refine ⟨j, ?_⟩
        rw [hi] at hn
        simp [hn]
      · exact ⟨n, by simp [h1, h2, hn]⟩

theorem Heap.swapItems_eq (h : Heap K V) {i j : Nat} {a b : item K V}
    (hi : h.items[i]? = some b) (hj : h.items[j]? = some a) (hij : i ≠ j) :
    h.swapItems i j = .ok { h with
      items := (h.items.set i a).set j b,
      lookup := mapSet (mapSet h.lookup a.Key i) b.Key j } := by
  have hil := lt_of_getElem?_eq_some hi
  have hjl := lt_of_getElem?_eq_some hj
  have h1 : ((h.items.set i a).set j b)[i]? = some a := by
    rw [getElem?_swap hi hj]; simp [hij]
  have h2 : ((h.items.set i a).set j b)[j]? = some b := by
    rw [getElem?_swap hi hj]; simp
  unfold Heap.swapItems
  rw [getAt_eq_ok hj, ok_bind, getAt_eq_ok hi, ok_bind, setAt_eq_ok _ hil, ok_bind,
    setAt_eq_ok _ (by rw [List.length_set]; exact hjl), ok_bind, getAt_eq_ok h1, ok_bind,
    getAt_eq_ok h2, ok_bind]
  rfl

/-! ## The repair walks -/

section Sift

variable {cmp : CompareFunc V} {items : List (item K V)}

theorem UpInv.ordered_of_parent_le {i : Nat} (hu : UpInv cmp items i)
    (hle : 0 < i → LeOpt cmp items[(i - 1) / 2]? items[i]?) : Ordered cmp items := by
  intro j hj
  by_cases hji : j = i
  · subst hji; exact hle hj
  · exact hu.1 j hj hji

theorem DownInv.ordered_of_children_le {i : Nat} (hd : DownInv cmp items i)
    (hle : ∀ c, 0 < c → (c - 1) / 2 = i → LeOpt cmp items[i]? items[c]?) : Ordered cmp items := by
  intro j hj
  by_cases hji : (j - 1) / 2 = i
  · have := hle j hj hji
    rw [hji]; exact this
  · exact hd.1 j hj hji

theorem UpInv.step_up {i : Nat} {p c : item K V} (tp : TotalPreorder cmp) (hu : UpInv cmp items i)
    (hi0 : 0 < i) (hp : items[(i - 1) / 2]? = some p) (hc : items[i]? = some c)
    (hgt : ¬ cmp p.Value c.Value ≤ 0) :
    UpInv cmp ((items.set i p).set ((i - 1) / 2) c) ((i - 1) / 2) := by
  have hq : (i - 1) / 2 < i := by omega
  have hcp : cmp c.Value p.Value ≤ 0 := tp.le_of_not_le hgt
  constructor
  · intro j hj hjq x y hx hy
    rw [getElem?_swap hc hp] at hx hy
    by_cases hji : j = i
    · subst hji
      simp only [if_true, if_neg hjq, Option.some.injEq] at hx hy
      subst hx; subst hy
      exact hcp
    · simp only [if_neg hjq, if_neg hji] at hy
      by_cases h1 : (j - 1) / 2 = (i - 1) / 2
      · simp only [h1, if_true, Option.some.injEq] at hx
        subst hx
        have := hu.1 j hj hji p y (by rw [h1]; exact hp) hy
        exact tp.trans _ _ _ hcp this
      · by_cases h2 : (j - 1) / 2 = i
        · have e0 : ¬ i = (i - 1) / 2 := by omega
          simp only [if_neg h1, h2, if_neg e0, if_true, Option.some.injEq] at hx
          subst hx
          exact hu.2 j hi0 hj h2 _ y hp hy
        · simp only [if_neg h1, if_neg h2] at hx
          exact hu.1 j hj hji x y hx hy
  · intro c1 h0q hc1 hpc x y hx hy
    rw [getElem?_swap hc hp] at hx hy
    have e1 : ¬ ((i - 1) / 2 - 1) / 2 = (i - 1) / 2 := by omega
    have e2 : ¬ ((i - 1) / 2 - 1) / 2 = i := by omega
    have e3 : ¬ c1 = (i - 1) / 2 := by omega
    simp only [if_neg e1, if_neg e2] at hx
    simp only [if_neg e3] at hy
    have hxp : cmp x.Value p.Value ≤ 0 := hu.1 _ h0q (by omega) x p hx hp
    by_cases h1 : c1 = i
    · simp only [h1, if_true, Option.some.injEq] at hy
      subst hy
      exact hxp
    · simp only [if_neg h1] at hy
      have := hu.1 c1 hc1 h1 p y (by rw [hpc]; exact hp) hy
      exact tp.trans _ _ _ hxp this

theorem DownInv.step_down {i m : Nat} {x y : item K V} (hd : DownInv cmp items i)
    (hx : items[i]? = some x) (hy : items[m]? = some y) (hm0 : 0 < m) (hm : (m - 1) / 2 = i)
    (hlt : cmp y.Value x.Value ≤ 0)
    (hmin : ∀ c, 0 < c → (c - 1) / 2 = i → LeOpt cmp (some y) items[c]?) :
    DownInv cmp ((items.set i y).set m x) m := by
  have him : i < m := by omega
  constructor
  · intro j hj hjm u w hu hw
    rw [getElem?_swap hx hy] at hu hw
    simp only [if_neg hjm] at hu
    by_cases h1 : (j - 1) / 2 = i
    · simp only [h1, if_true, Option.some.injEq] at hu
      subst hu
      by_cases h2 : j = m
      · simp only [h2, if_true, Option.some.injEq] at hw
        subst hw
        exact hlt
      · have h3 : ¬ j = i := by omega
        simp only [if_neg h2, if_neg h3] at hw
        exact hmin j hj h1 _ w rfl hw
    · simp only [if_neg h1] at hu
      have h2 : ¬ j = m := by
        intro e; rw [e] at h1; exact h1 hm
      simp only [if_neg h2] at hw
      by_cases h3 : j = i
      · simp only [h3, if_true, Option.some.injEq] at hw
        subst hw
        rw [h3] at hu
        exact hd.2 m (by omega) hm0 hm u _ hu hy
      · simp only [if_neg h3] at hw
        exact hd.1 j hj h1 u w hu hw
  · intro c h0m hc hpc u w hu hw
    rw [getElem?_swap hx hy] at hu hw
    have e1 : ¬ (m - 1) / 2 = m := by omega
    have e2 : ¬ c = m := by omega
    have e3 : ¬ c = i := by omega
    have e4 : ¬ i = m := by omega
    simp only [if_neg e1, hm, if_neg e4, if_true, Option.some.injEq] at hu
    simp only [if_neg e2, if_neg e3] at hw
    subst hu
    exact hd.1 c hc (by omega) _ w (by rw [hpc]; exact hy) hw

end Sift

theorem siftUpLoop_spec (fuel : Nat) : ∀ (h : Heap K V) (i : Nat), i ≤ fuel →
    i < h.items.length → Consistent h.items h.lookup →
    ∃ h1, Heap.siftUpLoop fuel h i = .ok h1 ∧ h1.cmp = h.cmp ∧
      Consistent h1.items h1.lookup ∧ h1.items.Perm h.items ∧
      (TotalPreorder h.cmp → UpInv h.cmp h.items i → Ordered h.cmp h1.items) := by
  induction fuel with
  | zero =>
    intro h i hf hi C
    have : i = 0 := by omega
    subst this
    exact ⟨h, by simp [Heap.siftUpLoop], rfl, C, List.Perm.refl _,
      fun _ hu => hu.ordered_of_parent_le (fun h0 => absurd h0 (by omega))⟩
  | succ fuel ih =>
    intro h i hf hi C
    by_cases hi0 : 0 < i
    · obtain ⟨p, hp⟩ := getElem?_isSome_of_lt (show (i - 1) / 2 < h.items.length by omega)
      obtain ⟨c, hc⟩ := getElem?_isSome_of_lt hi
      by_cases hle : h.cmp p.Value c.Value ≤ 0
      · refine ⟨h, ?_, rfl, C, List.Perm.refl _,
          fun _ hu => hu.ordered_of_parent_le (fun _ x y hx hy => ?_)⟩
        · simp [Heap.siftUpLoop, hi0, getAt_eq_ok hp, getAt_eq_ok hc, hle]
        · rw [hp] at hx; rw [hc] at hy
          cases hx; cases hy; exact hle
      · have hne : i ≠ (i - 1) / 2 := by omega
        have hsw := h.swapItems_eq hc hp hne
        obtain ⟨h1, e1, e2, e3, e4, e5⟩ := ih _ ((i - 1) / 2) (by omega)
          (show (i - 1) / 2 < (({ h with
              items := (h.items.set i p).set ((i - 1) / 2) c,
              lookup := mapSet (mapSet h.lookup p.Key i) c.Key ((i - 1) / 2) } :
                Heap K V)).items.length by
            simp only [List.length_set]; omega)
          (C.swap hc hp hne)
        refine ⟨h1, ?_, e2, e3, e4.trans (C.swap_perm hc hp hne),
          fun tp hu => e5 tp (hu.step_up tp hi0 hp hc hle)⟩
        simp only [Heap.siftUpLoop, hi0, if_true, getAt_eq_ok hp, getAt_eq_ok hc, ok_bind, hle,
          if_false, hsw]
        exact e1
    · have : i = 0 := by omega
      subst this
      exact ⟨h, by simp [Heap.siftUpLoop], rfl, C, List.Perm.refl _,
        fun _ hu => hu.ordered_of_parent_le (fun h0 => absurd h0 (by omega))⟩

/-- One iteration of the loop of `siftDown`: the position `m` it selects, what
it does next, and what the comparisons it made say about `m`. -/
theorem siftDownLoop_iter (h : Heap K V) (fuel size i : Nat) (hs : size = h.items.length)
    (hi : i < size) {x : item K V} (hx : h.items[i]? = some x) :
    ∃ m, Heap.siftDownLoop (fuel + 1) size h i =
        (if m = i then .ok h else h.swapItems i m >>= fun h2 => Heap.siftDownLoop fuel size h2 m) ∧
      (m = i ∨ (0 < m ∧ (m - 1) / 2 = i ∧ m < size)) ∧
      (TotalPreorder h.cmp →
        (m = i → ∀ c, 0 < c → (c - 1) / 2 = i → LeOpt h.cmp (some x) h.items[c]?) ∧
        (m ≠ i → ∀ y, h.items[m]? = some y → h.cmp y.Value x.Value ≤ 0 ∧
          ∀ c, 0 < c → (c - 1) / 2 = i → LeOpt h.cmp (some y) h.items[c]?)) := by
  by_cases hL : 2 * i + 1 < size
  · obtain ⟨l, hl⟩ := getElem?_isSome_of_lt (show 2 * i + 1 < h.items.length by omega)
    by_cases hlx : h.cmp l.Value x.Value < 0
    · by_cases hR : 2 * i + 2 < size
      · obtain ⟨r, hr⟩ := getElem?_isSome_of_lt (show 2 * i + 2 < h.items.length by omega)
        by_cases hrl : h.cmp r.Value l.Value < 0
        · refine ⟨2 * i + 2, ?_, Or.inr ⟨by omega, by omega, hR⟩, fun tp => ⟨fun e => by omega, ?_⟩⟩
          · simp [Heap.siftDownLoop, hi, hL, hR, getAt_eq_ok hl, getAt_eq_ok hx, getAt_eq_ok hr,
              hlx, hrl]
          · intro _ y hy
            rw [hr] at hy; cases hy
            refine ⟨tp.trans _ l.Value _ (by omega) (by omega), fun c hc hpc u w hu hw => ?_⟩
            cases hu
            have hc2 : c = 2 * i + 1 ∨ c = 2 * i + 2 := by omega
            rcases hc2 with hc2 | hc2
            · subst hc2; rw [hl] at hw; cases hw; omega
            · subst hc2; rw [hr] at hw; cases hw; exact tp.refl _
        · refine ⟨2 * i + 1, ?_, Or.inr ⟨by omega, by omega, hL⟩, fun tp => ⟨fun e => by omega, ?_⟩⟩
          · simp [Heap.siftDownLoop, hi, hL, hR, getAt_eq_ok hl, getAt_eq_ok hx, getAt_eq_ok hr,
              hlx, hrl]
          · intro _ y hy
            rw [hl] at hy; cases hy
            refine ⟨by omega, fun c hc hpc u w hu hw => ?_⟩
            cases hu
            have hc2 : c = 2 * i + 1 ∨ c = 2 * i + 2 := by omega
            rcases hc2 with hc2 | hc2
            · subst hc2; rw [hl] at hw; cases hw; exact tp.refl _
            · subst hc2; rw [hr] at hw; cases hw; exact tp.le_of_not_lt hrl
      · refine ⟨2 * i + 1, ?_, Or.inr ⟨by omega, by omega, hL⟩, fun tp => ⟨fun e => by omega, ?_⟩⟩
        · simp [Heap.siftDownLoop, hi, hL, hR, getAt_eq_ok hl, getAt_eq_ok hx, hlx]
        · intro _ y hy
          rw [hl] at hy; cases hy
          refine ⟨by omega, fun c hc hpc u w hu hw => ?_⟩
          cases hu
          have hc2 : c = 2 * i + 1 ∨ c = 2 * i + 2 := by omega
          rcases hc2 with hc2 | hc2
          · subst hc2; rw [hl] at hw; cases hw; exact tp.refl _
          · subst hc2
            have := lt_of_getElem?_eq_some hw
            omega
    · by_cases hR : 2 * i + 2 < size
      · obtain ⟨r, hr⟩ := getElem?_isSome_of_lt (show 2 * i + 2 < h.items.length by omega)
        by_cases hrx : h.cmp r.Value x.Value < 0
        · refine ⟨2 * i + 2, ?_, Or.inr ⟨by omega, by omega, hR⟩, fun tp => ⟨fun e => by omega, ?_⟩⟩
          · simp [Heap.siftDownLoop, hi, hL, hR, getAt_eq_ok hl, getAt_eq_ok hx, getAt_eq_ok hr,
              hlx, hrx]
          · intro _ y hy
            rw [hr] at hy; cases hy
            refine ⟨by omega, fun c hc hpc u w hu hw => ?_⟩
            cases hu
            have hc2 : c = 2 * i + 1 ∨ c = 2 * i + 2 := by omega
            rcases hc2 with hc2 | hc2
            · subst hc2; rw [hl] at hw; cases hw
              exact tp.trans _ x.Value _ (by omega) (tp.le_of_not_lt hlx)
            · subst hc2; rw [hr] at hw; cases hw; exact tp.refl _
        · refine ⟨i, ?_, Or.inl rfl, fun tp => ⟨fun _ c hc hpc u w hu hw => ?_, fun e => absurd rfl e⟩⟩
          · simp [Heap.siftDownLoop, hi, hL, hR, getAt_eq_ok hl, getAt_eq_ok hx, getAt_eq_ok hr,
              hlx, hrx]
          · cases hu
            have hc2 : c = 2 * i + 1 ∨ c = 2 * i + 2 := by omega
            rcases hc2 with hc2 | hc2
            · subst hc2; rw [hl] at hw; cases hw; exact tp.le_of_not_lt hlx
            · subst hc2; rw [hr] at hw; cases hw; exact tp.le_of_not_lt hrx
      · refine ⟨i, ?_, Or.inl rfl, fun tp => ⟨fun _ c hc hpc u w hu hw => ?_, fun e => absurd rfl e⟩⟩
        · simp [Heap.siftDownLoop, hi, hL, hR, getAt_eq_ok hl, getAt_eq_ok hx, hlx]
        · cases hu
          have hc2 : c = 2 * i + 1 ∨ c = 2 * i + 2 := by omega
          rcases hc2 with hc2 | hc2
          · subst hc2; rw [hl] at hw; cases hw; exact tp.le_of_not_lt hlx
          · subst hc2
            have := lt_of_getElem?_eq_some hw
            omega
  · have hR : ¬ 2 * i + 2 < size := by omega
    refine ⟨i, ?_, Or.inl rfl, fun tp => ⟨fun _ c hc hpc u w hu hw => ?_, fun e => absurd rfl e⟩⟩
    · simp [Heap.siftDownLoop, hi, hL, hR]
    · have := lt_of_getElem?_eq_some hw
      omega

theorem siftDownLoop_spec (fuel : Nat) : ∀ (h : Heap K V) (size i : Nat),
    size = h.items.length → size - i ≤ fuel → Consistent h.items h.lookup →
    ∃ h1, Heap.siftDownLoop fuel size h i = .ok h1 ∧ h1.cmp = h.cmp ∧
      Consistent h1.items h1.lookup ∧ h1.items.Perm h.items ∧
      (TotalPreorder h.cmp → DownInv h.cmp h.items i → Ordered h.cmp h1.items) := by
  have stop : ∀ (h : Heap K V) (i : Nat), ¬ i < h.items.length → DownInv h.cmp h.items i →
      Ordered h.cmp h.items := by
    intro h i hi hd
    refine hd.ordered_of_children_le (fun c _ _ u w hu _ => ?_)
    have := lt_of_getElem?_eq_some hu
    omega
  induction fuel with
  | zero =>
    intro h size i hs hf C
    have hi : ¬ i < size := by omega
    exact ⟨h, by simp [Heap.siftDownLoop, hi], rfl, C, List.Perm.refl _,
      fun _ hd => stop h i (by omega) hd⟩
  | succ fuel ih =>
    intro h size i hs hf C
    by_cases hi : i < size
    · obtain ⟨x, hx⟩ := getElem?_isSome_of_lt (show i < h.items.length by omega)
      obtain ⟨m, hrun, hm, hsel⟩ := siftDownLoop_iter h fuel size i hs hi hx
      rcases hm with hm | ⟨hm0, hmp, hms⟩
      · refine ⟨h, by rw [hrun, if_pos hm], rfl, C, List.Perm.refl _, fun tp hd => ?_⟩
        refine hd.ordered_of_children_le (fun c hc hpc => ?_)
        rw [hx]
        exact (hsel tp).1 hm c hc hpc
      · have hne : i ≠ m := by omega
        obtain ⟨y, hy⟩ := getElem?_isSome_of_lt (show m < h.items.length by omega)
        have hsw := h.swapItems_eq hx hy hne
        obtain ⟨h1, e1, e2, e3, e4, e5⟩ := ih _ size m
          (show size = (({ h with
              items := (h.items.set i y).set m x,
              lookup := mapSet (mapSet h.lookup y.Key i) x.Key m } : Heap K V)).items.length by
            simp only [List.length_set]; exact hs)
          (by omega) (C.swap hx hy hne)
        refine ⟨h1, ?_, e2, e3, e4.trans (C.swap_perm hx hy hne), fun tp hd => e5 tp ?_⟩
        · rw [hrun, if_neg (fun e => hne e.symm), hsw, ok_bind]
          exact e1
        · obtain ⟨hlt, hmin⟩ := (hsel tp).2 (fun e => hne e.symm) y hy
          exact hd.step_down hx hy hm0 hmp hlt hmin
    · exact ⟨h, by simp [Heap.siftDownLoop, hi], rfl, C, List.Perm.refl _,
        fun _ hd => stop h i (by omega) hd⟩

theorem siftUp_spec (h : Heap K V) (i : Nat) (hi : i < h.items.length)
    (C : Consistent h.items h.lookup) :
    ∃ h1, h.siftUp i = .ok h1 ∧ h1.cmp = h.cmp ∧
      Consistent h1.items h1.lookup ∧ h1.items.Perm h.items ∧
      (TotalPreorder h.cmp → UpInv h.cmp h.items i → Ordered h.cmp h1.items) :=
  siftUpLoop_spec i h i (Nat.le_refl _) hi C

theorem siftDown_spec (h : Heap K V) (i : Nat) (C : Consistent h.items h.lookup) :
    ∃ h1, h.siftDown i = .ok h1 ∧ h1.cmp = h.cmp ∧
      Consistent h1.items h1.lookup ∧ h1.items.Perm h.items ∧
      (TotalPreorder h.cmp → DownInv h.cmp h.items i → Ordered h.cmp h1.items) :=
  siftDownLoop_spec h.items.length h h.items.length i rfl (Nat.sub_le _ _) C

/-! ## Relocating the last pair -/

theorem getElem?_moved {α : Type} {s : List α} {index : Nat} (last : α)
    (hlt : index < s.length - 1) (n : Nat) :
    ((s.set index last).take (s.length - 1))[n]? =
      if n < s.length - 1 then (if n = index then some last else s[n]?) else none := by
  rw [List.getElem?_take, List.getElem?_set]
  by_cases h1 : n < s.length - 1
  · by_cases h2 : n = index
    · subst h2
      have : n < s.length := by omega
      simp [h1, this]
    · have h2a : ¬ index = n := fun e => h2 e.symm
      simp [h1, h2, h2a]
  · simp [h1]

theorem perm_dropLast {α : Type} {s : List α} {last : α} (hl : s[s.length - 1]? = some last) :
    s.Perm (last :: s.take (s.length - 1)) := by
  have h1 : s.dropLast ++ [last] = s :=
    List.dropLast_append_getLast? last (by rw [List.getLast?_eq_getElem?]; exact hl)
  rw [List.dropLast_eq_take] at h1
  have h2 := List.perm_append_singleton last (s.take (s.length - 1))
  rw [h1] at h2
  exact h2

theorem Consistent.moveLast_perm {items : List (item K V)} {lookup : List (K × Nat)}
    (C : Consistent items lookup) {index : Nat} {it last : item K V}
    (hi : items[index]? = some it) (hl : items[items.length - 1]? = some last)
    (hlt : index < items.length - 1) :
    items.Perm (it :: (items.set index last).take (items.length - 1)) := by
  have C2 := C.moveLast hi hl hlt
  have hnot : it ∉ (items.set index last).take (items.length - 1) := by
    intro hm
    obtain ⟨n, hn⟩ := List.mem_iff_getElem?.1 hm
    rw [getElem?_moved last hlt] at hn
    by_cases h1 : n < items.length - 1
    · by_cases h2 : n = index
      · subst h2
        simp only [h1, if_true, Option.some.injEq] at hn
        have := C.inj hl hi (by rw [hn])
        omega
      · simp only [h1, h2, if_true, if_false] at hn
        exact h2 (C.inj hn hi rfl)
    · simp [h1] at hn
  rw [List.perm_ext_iff_of_nodup C.items_nodup (List.nodup_cons.2 ⟨hnot, C2.items_nodup⟩)]
  intro x
  rw [List.mem_cons]
  constructor
  · intro hm
    obtain ⟨n, hn⟩ := List.mem_iff_getElem?.1 hm
    by_cases h2 : n = index
    · left
      rw [h2, hi] at hn
      exact (Option.some.inj hn).symm
    · right
      refine List.mem_iff_getElem?.2 ?_
      by_cases h1 : n < items.length - 1
      · exact ⟨n, by rw [getElem?_moved last hlt]; simp [h1, h2, hn]⟩
      · have := lt_of_getElem?_eq_some hn
        have h3 : n = items.length - 1 := by omega
        rw [h3, hl] at hn
        exact ⟨index, by rw [getElem?_moved last hlt]; simp [hlt, hn]⟩
  · rintro (hx | hm)
    · exact List.mem_iff_getElem?.2 ⟨index, by rw [hi, hx]⟩
    · obtain ⟨n, hn⟩ := List.mem_iff_getElem?.1 hm
      rw [getElem?_moved last hlt] at hn
      refine List.mem_iff_getElem?.2 ?_
      by_cases h1 : n < items.length - 1
      · by_cases h2 : n = index
        · subst h2
          simp only [h1, if_true] at hn
          exact ⟨items.length - 1, by rw [hl, hn]⟩
        · simp only [h1, h2, if_true, if_false] at hn
          exact ⟨n, hn⟩
      · simp [h1] at hn

theorem Ordered.take {cmp : CompareFunc V} {items : List (item K V)} (ho : Ordered cmp items)
    (n : Nat) : Ordered cmp (items.take n) := by
  intro j hj x y hx hy
  rw [List.getElem?_take] at hx hy
  by_cases h1 : j < n
  · have h2 : (j - 1) / 2 < n := by omega
    simp only [h1, h2, if_true] at hx hy
    exact ho j hj x y hx hy
  · simp [h1] at hy

theorem Ordered.empty {cmp : CompareFunc V} : Ordered cmp ([] : List (item K V)) := by
  intro j _ x y _ hy
  simp at hy

/-! ## `Pop` -/

theorem Pop_empty (h : Heap K V) (he : h.items.length = 0) : h.Pop = .ok (h, none) := by
  simp [Heap.Pop, he]

theorem Pop_spec (h : Heap K V) (C : Consistent h.items h.lookup) {first : item K V}
    (hf : h.items[0]? = some first) :
    ∃ h1, h.Pop = .ok (h1, some (first.Key, first.Value)) ∧ h1.cmp = h.cmp ∧
      Consistent h1.items h1.lookup ∧ h.items.Perm (first :: h1.items) ∧
      (TotalPreorder h.cmp → Ordered h.cmp h.items → Ordered h.cmp h1.items) := by
  have h0 := lt_of_getElem?_eq_some hf
  by_cases h1 : h.items.length = 1
  · have hl : h.items[h.items.length - 1]? = some first := by rw [h1]; exact hf
    refine ⟨{ h with items := h.items.take 0, lookup := mapDelete h.lookup first.Key },
      ?_, rfl, ?_, ?_, fun _ _ => ?_⟩
    · simp [Heap.Pop, h1, getAt_eq_ok hf]
    · have := C.dropLast hl
      rw [h1] at this
      exact this
    · have := perm_dropLast hl
      rw [h1] at this
      exact this
    · simp only [List.take_zero]
      exact Ordered.empty
  · obtain ⟨last, hl⟩ := getElem?_isSome_of_lt (show h.items.length - 1 < h.items.length by omega)
    have hlt : 0 < h.items.length - 1 := by omega
    have hroot : ((h.items.set 0 last).take (h.items.length - 1))[0]? = some last := by
      rw [getElem?_moved last hlt]; simp [hlt]
    obtain ⟨h2, e1, e2, e3, e4, e5⟩ := siftDown_spec
      ({ h with
          items := (h.items.set 0 last).take (h.items.length - 1),
          lookup := mapSet (mapDelete h.lookup first.Key) last.Key 0 } : Heap K V) 0
      (C.moveLast hf hl hlt)
    refine ⟨h2, ?_, e2, e3, (C.moveLast_perm hf hl hlt).trans ((List.Perm.cons _ e4).symm),
      fun tp ho => e5 tp ⟨fun j hj hp x y hx hy => ?_, fun c h00 => absurd h00 (by omega)⟩⟩
    · have hne : ¬ h.items.length = 0 := by omega
      simp only [Heap.Pop, hne, if_false, getAt_eq_ok hf, ok_bind, h1, getAt_eq_ok hl,
        setAt_eq_ok _ h0, getAt_eq_ok hroot, e1, pure_eq_ok]
    · simp only [getElem?_moved last hlt] at hx hy
      by_cases h3 : j < h.items.length - 1
      · have h4 : (j - 1) / 2 < h.items.length - 1 := by omega
        have h5 : ¬ j = 0 := by omega
        simp only [h3, h4, if_true, h5, hp, if_false] at hx hy
        exact ho j hj x y hx hy
      · simp [h3] at hy

/-! ## `Remove` -/

theorem Remove_absent (h : Heap K V) (key : K) (hk : mapGet h.lookup key = none) :
    h.Remove key = .ok (h, none) := by
  simp [Heap.Remove, hk]

theorem Remove_spec (h : Heap K V) (C : Consistent h.items h.lookup) {key : K} {index : Nat}
    (hk : mapGet h.lookup key = some index) :
    ∃ it h1, h.items[index]? = some it ∧ it.Key = key ∧
      h.Remove key = .ok (h1, some it.Value) ∧ h1.cmp = h.cmp ∧
      Consistent h1.items h1.lookup ∧ h.items.Perm (it :: h1.items) ∧
      (TotalPreorder h.cmp → Ordered h.cmp h.items → Ordered h.cmp h1.items) := by
  obtain ⟨it, hit, hkey⟩ := (C.2 key index).1 hk
  have hil := lt_of_getElem?_eq_some hit
  by_cases h0 : index = 0
  · subst h0
    obtain ⟨h1, e1, e2, e3, e4, e5⟩ := Pop_spec h C hit
    refine ⟨it, h1, hit, hkey, ?_, e2, e3, e4, e5⟩
    simp [Heap.Remove, hk, e1]
  · by_cases hlast : index = h.items.length - 1
    · have hl : h.items[h.items.length - 1]? = some it := by rw [← hlast]; exact hit
      refine ⟨it,
        { h with
          items := h.items.take (h.items.length - 1),
          lookup := mapDelete h.lookup key },
        hit, hkey, ?_, rfl, ?_, perm_dropLast hl, fun _ ho => ho.take _⟩
      · simp only [Heap.Remove, hk, h0, if_false, ← hlast, if_true, getAt_eq_ok hit, ok_bind,
          pure_eq_ok]
      · have := C.dropLast hl
        rw [hkey] at this
        exact this
    · obtain ⟨last, hl⟩ :=
        getElem?_isSome_of_lt (show h.items.length - 1 < h.items.length by omega)
      have hlt : index < h.items.length - 1 := by omega
      have hpar : (index - 1) / 2 < index := by omega
      obtain ⟨p, hp⟩ :=
        getElem?_isSome_of_lt (show (index - 1) / 2 < h.items.length by omega)
      have hmoved : ((h.items.set index last).take (h.items.length - 1))[index]? = some last := by
        rw [getElem?_moved last hlt]; simp [hlt]
      have hp2 : ((h.items.set index last).take (h.items.length - 1))[(index - 1) / 2]? =
          some p := by
        rw [getElem?_moved last hlt]
        have e1 : (index - 1) / 2 < h.items.length - 1 := by omega
        have e2 : ¬ (index - 1) / 2 = index := by omega
        simp [e1, e2, hp]
      have C2 : Consistent ((h.items.set index last).take (h.items.length - 1))
          (mapSet (mapDelete h.lookup key) last.Key index) := by
        have := C.moveLast hit hl hlt
        rw [hkey] at this
        exact this
      have hlen2 : index < ((h.items.set index last).take (h.items.length - 1)).length := by
        rw [List.length_take, List.length_set]; omega
      have hgrand : ∀ c, 0 < c → (c - 1) / 2 = index → ∀ (tp : TotalPreorder h.cmp),
          Ordered h.cmp h.items →
          LeOpt h.cmp ((h.items.set index last).take (h.items.length - 1))[(index - 1) / 2]?
            ((h.items.set index last).take (h.items.length - 1))[c]? := by
        intro c hc hpc tp ho x y hx hy
        rw [hp2] at hx
        cases hx
        rw [getElem?_moved last hlt] at hy
        by_cases h3 : c < h.items.length - 1
        · have h4 : ¬ c = index := by omega
          simp only [h3, h4, if_true, if_false] at hy
          have a1 := ho index (by omega) _ it hp hit
          have a2 := ho c hc it y (by rw [hpc]; exact hit) hy
          exact tp.trans _ _ _ a1 a2
        · simp [h3] at hy
      by_cases hgt : h.cmp p.Value last.Value > 0
      · obtain ⟨h1, e1, e2, e3, e4, e5⟩ := siftUp_spec
          ({ h with
              items := (h.items.set index last).take (h.items.length - 1),
              lookup := mapSet (mapDelete h.lookup key) last.Key index } : Heap K V) index
          hlen2 C2
        refine ⟨it, h1, hit, hkey, ?_, e2, e3,
          (C.moveLast_perm hit hl hlt).trans ((List.Perm.cons _ e4).symm),
          fun tp ho => e5 tp ⟨fun j hj hji x y hx hy => ?_,
            fun c _ hc hpc => hgrand c hc hpc tp ho⟩⟩
        · simp only [Heap.Remove, hk, h0, if_false, hlast, getAt_eq_ok hit, ok_bind,
            getAt_eq_ok hl, setAt_eq_ok _ hil, getAt_eq_ok hmoved, getAt_eq_ok hp2, hgt, if_true,
            e1, pure_eq_ok]
        · simp only [getElem?_moved last hlt] at hx hy
          by_cases h3 : j < h.items.length - 1
          · have h4 : (j - 1) / 2 < h.items.length - 1 := by omega
            simp only [h3, h4, if_true, hji, if_false] at hx hy
            by_cases h5 : (j - 1) / 2 = index
            · simp only [h5, if_true, Option.some.injEq] at hx
              subst hx
              have a0 : h.cmp last.Value p.Value ≤ 0 := tp.le_of_not_le (by omega)
              have a1 := ho index (by omega) _ it hp hit
              have a2 := ho j hj it y (by rw [h5]; exact hit) hy
              exact tp.trans _ _ _ a0 (tp.trans _ _ _ a1 a2)
            · simp only [h5, if_false] at hx
              exact ho j hj x y hx hy
          · simp [h3] at hy
      · obtain ⟨h1, e1, e2, e3, e4, e5⟩ := siftDown_spec
          ({ h with
              items := (h.items.set index last).take (h.items.length - 1),
              lookup := mapSet (mapDelete h.lookup key) last.Key index } : Heap K V) index C2
        refine ⟨it, h1, hit, hkey, ?_, e2, e3,
          (C.moveLast_perm hit hl hlt).trans ((List.Perm.cons _ e4).symm),
          fun tp ho => e5 tp ⟨fun j hj hji x y hx hy => ?_,
            fun c _ hc hpc => hgrand c hc hpc tp ho⟩⟩
        · simp only [Heap.Remove, hk, h0, if_false, hlast, getAt_eq_ok hit, ok_bind,
            getAt_eq_ok hl, setAt_eq_ok _ hil, getAt_eq_ok hmoved, getAt_eq_ok hp2, hgt,
            e1, pure_eq_ok]
        · simp only [getElem?_moved last hlt] at hx hy
          by_cases h3 : j < h.items.length - 1
          · have h4 : (j - 1) / 2 < h.items.length - 1 := by omega
            simp only [h3, h4, if_true, hji, if_false] at hx hy
            by_cases h5 : j = index
            · subst h5
              simp only [if_true, Option.some.injEq] at hy
              subst hy
              rw [hp] at hx
              cases hx
              show h.cmp _ _ ≤ 0
              omega
            · simp only [h5, if_false] at hy
              exact ho j hj x y hx hy
          · simp [h3] at hy

/-- After a removal the lookup map no longer knows the removed key. -/
theorem Consistent.get_none_of_perm {items items1 : List (item K V)} {lookup lookup1 : List (K × Nat)}
    (C : Consistent items lookup) (C1 : Consistent items1 lookup1) {it : item K V}
    (hperm : items.Perm (it :: items1)) : mapGet lookup1 it.Key = none := by
  have hn : ((it :: items1).map item.Key).Nodup := (hperm.map item.Key).nodup_iff.1 C.keys_nodup
  simp only [List.map_cons, List.nodup_cons] at hn
  cases hg : mapGet lookup1 it.Key with
  | none => rfl
  | some j =>
    exfalso
    exact hn.1 ((C1.mem_keys _).1 (mem_keys_iff.2 ⟨j, hg⟩))

/-! ## `Push` -/

theorem pushBack_spec (h : Heap K V) (C : Consistent h.items h.lookup) {key : K} (value : V)
    (hk : mapGet h.lookup key = none) :
    ∃ h1, h.pushBack key value = .ok h1 ∧ h1.cmp = h.cmp ∧
      Consistent h1.items h1.lookup ∧ h1.items.Perm (⟨key, value⟩ :: h.items) ∧
      (TotalPreorder h.cmp → Ordered h.cmp h.items → Ordered h.cmp h1.items) := by
  have hlen : (h.items ++ [(⟨key, value⟩ : item K V)]).length - 1 = h.items.length := by
    simp
  obtain ⟨h1, e1, e2, e3, e4, e5⟩ := siftUp_spec
    ({ h with
        items := h.items ++ [⟨key, value⟩],
        lookup := mapSet h.lookup key h.items.length } : Heap K V) h.items.length
    (by simp) (C.append value hk)
  refine ⟨h1, ?_, e2, e3, e4.trans (List.perm_append_singleton _ _),
    fun tp ho => e5 tp ⟨fun j hj hjl x y hx hy => ?_, fun c _ hc hpc x y hx hy => ?_⟩⟩
  · unfold Heap.pushBack
    simp only [hlen]
    exact e1
  · have hjlt := lt_of_getElem?_eq_some hy
    simp only [List.length_append, List.length_singleton] at hjlt
    have h1 : j < h.items.length := by omega
    have h2 : (j - 1) / 2 < h.items.length := by omega
    simp only [List.getElem?_append_left h1] at hy
    simp only [List.getElem?_append_left h2] at hx
    exact ho j hj x y hx hy
  · have hclt := lt_of_getElem?_eq_some hy
    simp only [List.length_append, List.length_singleton] at hclt
    omega

theorem Push_spec (h : Heap K V) (C : Consistent h.items h.lookup) (key : K) (value : V) :
    ∃ h1, h.Push key value = .ok h1 ∧ h1.cmp = h.cmp ∧ Consistent h1.items h1.lookup ∧
      (TotalPreorder h.cmp → Ordered h.cmp h.items → Ordered h.cmp h1.items) ∧
      (mapGet h.lookup key = none → h1.items.Perm (⟨key, value⟩ :: h.items)) ∧
      (∀ index it, mapGet h.lookup key = some index → h.items[index]? = some it →
        (h.cmp it.Value value = 0 → h1 = h) ∧
        (h.cmp it.Value value ≠ 0 → (it :: h1.items).Perm (⟨key, value⟩ :: h.items) ∧
          (⟨key, value⟩ : item K V) ∈ h1.items)) := by
  cases hk : mapGet h.lookup key with
  | none =>
    obtain ⟨h1, e1, e2, e3, e4, e5⟩ := pushBack_spec h C value hk
    refine ⟨h1, ?_, e2, e3, e5, fun _ => e4, fun index it hi => by cases hi⟩
    simp only [Heap.Push, hk]
    exact e1
  | some index =>
    obtain ⟨it, h2, hit, hkey, r1, r2, r3, r4, r5⟩ := Remove_spec h C hk
    by_cases hz : h.cmp it.Value value = 0
    · refine ⟨h, ?_, rfl, C, fun _ ho => ho, (fun hn => by cases hn), fun index1 it1 hi hit1 => ?_⟩
      · simp [Heap.Push, hk, getAt_eq_ok hit, hz]
      · cases hi
        rw [hit] at hit1
        cases hit1
        exact ⟨fun _ => rfl, fun hne => absurd hz hne⟩
    · have hk2 : mapGet h2.lookup key = none := by
        have := C.get_none_of_perm r3 r4
        rw [hkey] at this
        exact this
      obtain ⟨h1, e1, e2, e3, e4, e5⟩ := pushBack_spec h2 r3 value hk2
      refine ⟨h1, ?_, e2.trans r2, e3, fun tp ho => ?_, (fun hn => by cases hn),
        fun index1 it1 hi hit1 => ?_⟩
      · simp only [Heap.Push, hk, getAt_eq_ok hit, ok_bind, hz, if_false, r1]
        exact e1
      · have := e5 (by rw [r2]; exact tp) (by rw [r2]; exact r5 tp ho)
        rw [r2] at this
        exact this
      · cases hi
        rw [hit] at hit1
        cases hit1
        refine ⟨fun h0 => absurd h0 hz, fun _ => ⟨?_, e4.symm.subset (List.mem_cons_self _ _)⟩⟩
        have a1 : (it :: h1.items).Perm (it :: ⟨key, value⟩ :: h2.items) := List.Perm.cons _ e4
        have a2 : (it :: ⟨key, value⟩ :: h2.items).Perm (⟨key, value⟩ :: it :: h2.items) :=
          List.Perm.swap _ _ _
        exact a1.trans (a2.trans (List.Perm.cons _ r4.symm))

/-! ## `Get`, `Has`, `Peek` -/

theorem Get_absent (h : Heap K V) (key : K) (hk : mapGet h.lookup key = none) :
    h.Get key = .ok (h, none) := by
  simp [Heap.Get, hk]

theorem Get_present (h : Heap K V) (C : Consistent h.items h.lookup) {key : K} {index : Nat}
    (hk : mapGet h.lookup key = some index) :
    ∃ it, h.items[index]? = some it ∧ it.Key = key ∧ h.Get key = .ok (h, some it.Value) := by
  obtain ⟨it, hit, hkey⟩ := (C.2 key index).1 hk
  exact ⟨it, hit, hkey, by simp [Heap.Get, hk, getAt_eq_ok hit]⟩

theorem Get_of_mem (h : Heap K V) (C : Consistent h.items h.lookup) {key : K} {value : V}
    (hm : (⟨key, value⟩ : item K V) ∈ h.items) : h.Get key = .ok (h, some value) := by
  obtain ⟨j, hj⟩ := List.mem_iff_getElem?.1 hm
  have hk := C.get_of hj
  obtain ⟨it, hit, _, hg⟩ := Get_present h C hk
  rw [hj] at hit
  cases hit
  exact hg

theorem Peek_empty (h : Heap K V) (he : h.items.length = 0) : h.Peek = .ok (h, none) := by
  simp [Heap.Peek, he]

theorem Peek_nonempty (h : Heap K V) {first : item K V} (hf : h.items[0]? = some first) :
    h.Peek = .ok (h, some (first.Key, first.Value)) := by
  have := lt_of_getElem?_eq_some hf
  have hne : ¬ h.items.length = 0 := by omega
  simp [Heap.Peek, hne, getAt_eq_ok hf]

/-- Under heap order the root is not greater than any stored value. -/
theorem Ordered.root_le {cmp : CompareFunc V} {items : List (item K V)} (tp : TotalPreorder cmp)
    (ho : Ordered cmp items) {first : item K V} (hf : items[0]? = some first) :
    ∀ (n : Nat) (x : item K V), items[n]? = some x → cmp first.Value x.Value ≤ 0 := by
  intro n
  induction n using Nat.strong_induction_on with
  | _ n ih =>
    intro x hx
    by_cases h0 : n = 0
    · subst h0
      rw [hf] at hx
      cases hx
      exact tp.refl _
    · have hlt := lt_of_getElem?_eq_some hx
      obtain ⟨p, hp⟩ := getElem?_isSome_of_lt (show (n - 1) / 2 < items.length by omega)
      exact tp.trans _ _ _ (ih _ (by omega) p hp) (ho n (by omega) p x hp hx)

/-! ## Every public call keeps the invariants -/

theorem Clear_spec (h : Heap K V) (C : Consistent h.items h.lookup) :
    h.Clear.items = [] ∧ h.Clear.lookup = [] ∧ h.Clear.cmp = h.cmp := by
  unfold Heap.Clear
  by_cases hl : h.items.length > 0
  · simp [hl]
  · have h0 : h.items.length = 0 := by omega
    have h1 : h.lookup.length = 0 := by rw [C.length_eq]; exact h0
    simp only [hl, if_false]
    exact ⟨List.length_eq_zero.1 h0, List.length_eq_zero.1 h1, trivial⟩

theorem Call.run_spec (h : Heap K V) (C : Consistent h.items h.lookup) (c : Call K V) :
    ∃ h1, c.run h = .ok h1 ∧ h1.cmp = h.cmp ∧ Consistent h1.items h1.lookup ∧
      (TotalPreorder h.cmp → Ordered h.cmp h.items → Ordered h.cmp h1.items) := by
  cases c with
  | push key value =>
    obtain ⟨h1, e1, e2, e3, e4, _⟩ := Push_spec h C key value
    exact ⟨h1, e1, e2, e3, e4⟩
  | pop =>
    cases hf : h.items[0]? with
    | none =>
      have he : h.items.length = 0 := by
        have := List.getElem?_eq_none_iff.1 hf
        omega
      exact ⟨h, by simp [Call.run, Pop_empty h he], rfl, C, fun _ ho => ho⟩
    | some first =>
      obtain ⟨h1, e1, e2, e3, _, e5⟩ := Pop_spec h C hf
      exact ⟨h1, by simp [Call.run, e1], e2, e3, e5⟩
  | peek =>
    cases hf : h.items[0]? with
    | none =>
      have he : h.items.length = 0 := by
        have := List.getElem?_eq_none_iff.1 hf
        omega
      exact ⟨h, by simp [Call.run, Peek_empty h he], rfl, C, fun _ ho => ho⟩
    | some first =>
      exact ⟨h, by simp [Call.run, Peek_nonempty h hf], rfl, C, fun _ ho => ho⟩
  | has key => exact ⟨h, by simp [Call.run, Heap.Has], rfl, C, fun _ ho => ho⟩
  | get key =>
    cases hk : mapGet h.lookup key with
    | none => exact ⟨h, by simp [Call.run, Get_absent h key hk], rfl, C, fun _ ho => ho⟩
    | some index =>
      obtain ⟨it, _, _, hg⟩ := Get_present h C hk
      exact ⟨h, by simp [Call.run, hg], rfl, C, fun _ ho => ho⟩
  | remove key =>
    cases hk : mapGet h.lookup key with
    | none => exact ⟨h, by simp [Call.run, Remove_absent h key hk], rfl, C, fun _ ho => ho⟩
    | some index =>
      obtain ⟨it, h1, _, _, e1, e2, e3, _, e5⟩ := Remove_spec h C hk
      exact ⟨h1, by simp [Call.run, e1], e2, e3, e5⟩
  | clear =>
    obtain ⟨e1, e2, e3⟩ := Clear_spec h C
    refine ⟨h.Clear, by simp [Call.run], e3, ?_, fun _ _ => ?_⟩
    · rw [e1, e2]; exact Consistent.nil
    · rw [e1]; exact Ordered.empty

theorem Reachable.inv {cmp : CompareFunc V} {h : Heap K V} (hr : Reachable cmp h) :
    h.cmp = cmp ∧ Consistent h.items h.lookup ∧ (TotalPreorder cmp → Ordered cmp h.items) := by
  induction hr with
  | new => exact ⟨rfl, Consistent.nil, fun _ => Ordered.empty⟩
  | step h h1 c _ hrun ih =>
    obtain ⟨e0, C, ho⟩ := ih
    obtain ⟨h2, r1, r2, r3, r4⟩ := Call.run_spec h C c
    rw [hrun] at r1
    cases r1
    refine ⟨r2.trans e0, r3, fun tp => ?_⟩
    have := r4 (by rw [e0]; exact tp) (by rw [e0]; exact ho tp)
    rw [e0] at this
    exact this

theorem Reachable.pushAll {cmp : CompareFunc V} (l : List (K × V)) :
    ∀ {h h1 : Heap K V}, Reachable cmp h → pushAll h l = .ok h1 → Reachable cmp h1 := by
  induction l with
  | nil =>
    intro h h1 hr he
    simp only [heap.pushAll, pure_eq_ok, Except.ok.injEq] at he
    rw [← he]; exact hr
  | cons kv rest ih =>
    intro h h1 hr he
    obtain ⟨k, v⟩ := kv
    obtain ⟨h2, e1, _⟩ := Push_spec h hr.inv.2.1 k v
    simp only [heap.pushAll, e1, ok_bind] at he
    exact ih (Reachable.step h h2 (.push k v) hr e1) he

theorem intCmp_totalPreorder : TotalPreorder intCmp := by
  constructor
  · intro a b
    unfold intCmp
    split_ifs <;> omega
  · intro a b c
    unfold intCmp
    split_ifs <;> omega

theorem exABC_pushed :
    pushAll (New intCmp) [("a", 5), ("b", 1), ("c", 3)] = .ok exABC := rfl

theorem exSeven_pushed :
    pushAll (New intCmp)
      [("a", 1), ("b", 10), ("c", 2), ("d", 11), ("e", 12), ("f", 3), ("g", 4)] = .ok exSeven :=
  rfl

/-! ## Draining -/

theorem drain_spec (fuel : Nat) : ∀ (h : Heap K V), h.items.length ≤ fuel →
    Consistent h.items h.lookup →
    ∃ (h1 : Heap K V) (out : List (K × V)), drain fuel h = .ok (h1, out.map some) ∧ h1.cmp = h.cmp ∧
      h1.items = [] ∧ h1.lookup = [] ∧ out.Perm (h.items.map item.pair) ∧
      (TotalPreorder h.cmp → Ordered h.cmp h.items →
        out.Pairwise (fun v w => h.cmp v.2 w.2 ≤ 0)) := by
  have empty : ∀ (fuel : Nat) (h : Heap K V), h.items.length = 0 →
      Consistent h.items h.lookup →
      ∃ (h1 : Heap K V) (out : List (K × V)), drain fuel h = .ok (h1, out.map some) ∧ h1.cmp = h.cmp ∧
        h1.items = [] ∧ h1.lookup = [] ∧ out.Perm (h.items.map item.pair) ∧
        (TotalPreorder h.cmp → Ordered h.cmp h.items →
          out.Pairwise (fun v w => h.cmp v.2 w.2 ≤ 0)) := by
    intro fuel h h0 C
    have hi : h.items = [] := List.length_eq_zero.1 h0
    have hl : h.lookup = [] := List.length_eq_zero.1 (by rw [C.length_eq]; exact h0)
    refine ⟨h, [], ?_, rfl, hi, hl, by rw [hi]; exact List.Perm.refl _,
      fun _ _ => List.Pairwise.nil⟩
    cases fuel <;> simp [drain, Heap.Len, h0]
  induction fuel with
  | zero =>
    intro h hf C
    exact empty 0 h (by omega) C
  | succ fuel ih =>
    intro h hf C
    by_cases hpos : h.items.length > 0
    · obtain ⟨first, hfirst⟩ := getElem?_isSome_of_lt hpos
      obtain ⟨h1, e1, e2, e3, e4, e5⟩ := Pop_spec h C hfirst
      have hlen : h.items.length = h1.items.length + 1 := by
        simpa using e4.length_eq
      obtain ⟨h2, out, d1, d2, d3, d4, d5, d6⟩ := ih h1 (by omega) e3
      refine ⟨h2, first.pair :: out, ?_, d2.trans e2, d3, d4, ?_, fun tp ho => ?_⟩
      · simp only [drain, Heap.Len, hpos, if_true, e1, ok_bind, d1, pure_eq_ok, List.map_cons]
        rfl
      · have a1 : (first.pair :: out).Perm (first.pair :: h1.items.map item.pair) :=
          List.Perm.cons _ d5
        have a2 : ((first :: h1.items).map item.pair).Perm (h.items.map item.pair) :=
          (e4.map item.pair).symm
        exact a1.trans a2
      · rw [List.pairwise_cons]
        refine ⟨fun w hw => ?_, ?_⟩
        · have hw1 : w ∈ h1.items.map item.pair := d5.subset hw
          obtain ⟨it, hit, hpair⟩ := List.mem_map.1 hw1
          have hit1 : it ∈ h.items := e4.symm.subset (List.mem_cons_of_mem _ hit)
          obtain ⟨n, hn⟩ := List.mem_iff_getElem?.1 hit1
          have := ho.root_le tp hfirst n it hn
          rw [← hpair]
          exact this
        · have := d6 (by rw [e2]; exact tp) (by rw [e2]; exact e5 tp ho)
          rw [e2] at this
          exact this
    · exact empty _ h (by omega) C

/-! ## Sequences of calls -/

theorem Remove_of_mem (h : Heap K V) (C : Consistent h.items h.lookup) {key : K} {value : V}
    (hm : (⟨key, value⟩ : item K V) ∈ h.items) :
    ∃ h1, h.Remove key = .ok (h1, some value) ∧ h1.cmp = h.cmp ∧
      Consistent h1.items h1.lookup ∧ h.items.Perm (⟨key, value⟩ :: h1.items) ∧
      (TotalPreorder h.cmp → Ordered h.cmp h.items → Ordered h.cmp h1.items) := by
  obtain ⟨j, hj⟩ := List.mem_iff_getElem?.1 hm
  have hk := C.get_of hj
  obtain ⟨it, h1, hit, _, e1, e2, e3, e4, e5⟩ := Remove_spec h C hk
  rw [hj] at hit
  cases hit
  exact ⟨h1, e1, e2, e3, e4, e5⟩

theorem Consistent.get_eq_none_iff {items : List (item K V)} {lookup : List (K × Nat)}
    (C : Consistent items lookup) (k : K) :
    mapGet lookup k = none ↔ k ∉ items.map item.Key := by
  rw [← C.mem_keys, mem_keys_iff]
  cases mapGet lookup k <;> simp

/-- The keys stored after a `Push` are the keys stored before it and the pushed key. -/
theorem Push_keys (h : Heap K V) (C : Consistent h.items h.lookup) (key : K) (value : V) :
    ∃ h1, h.Push key value = .ok h1 ∧ h1.cmp = h.cmp ∧ Consistent h1.items h1.lookup ∧
      ∀ k, k ∈ h1.items.map item.Key ↔ k = key ∨ k ∈ h.items.map item.Key := by
  obtain ⟨h1, e1, e2, e3, _, e5, e6⟩ := Push_spec h C key value
  refine ⟨h1, e1, e2, e3, fun k => ?_⟩
  cases hk : mapGet h.lookup key with
  | none =>
    have := (e5 hk).map item.Key
    rw [this.mem_iff]
    simp
  | some index =>
    obtain ⟨it, hit, hkey⟩ := (C.2 key index).1 hk
    have hmem : key ∈ h.items.map item.Key :=
      List.mem_map.2 ⟨it, List.mem_iff_getElem?.2 ⟨index, hit⟩, hkey⟩
    obtain ⟨a1, a2⟩ := e6 index it hk hit
    by_cases hz : h.cmp it.Value value = 0
    · rw [a1 hz]
      constructor
      · intro hm; exact Or.inr hm
      · rintro (hm | hm)
        · rw [hm]; exact hmem
        · exact hm
    · have hp := ((a2 hz).1.map item.Key)
      simp only [List.map_cons, hkey] at hp
      have := (List.perm_cons key).1 hp
      rw [this.mem_iff]
      constructor
      · intro hm; exact Or.inr hm
      · rintro (hm | hm)
        · rw [hm]; exact hmem
        · exact hm

theorem pushAll_keys (pairs : List (K × V)) : ∀ (h : Heap K V), Consistent h.items h.lookup →
    ∃ h1, pushAll h pairs = .ok h1 ∧ h1.cmp = h.cmp ∧ Consistent h1.items h1.lookup ∧
      ∀ k, k ∈ h1.items.map item.Key ↔ k ∈ pairs.map Prod.fst ∨ k ∈ h.items.map item.Key := by
  induction pairs with
  | nil =>
    intro h C
    exact ⟨h, rfl, rfl, C, fun k => by simp⟩
  | cons kv rest ih =>
    intro h C
    obtain ⟨key, value⟩ := kv
    obtain ⟨h2, e1, e2, e3, e4⟩ := Push_keys h C key value
    obtain ⟨h1, d1, d2, d3, d4⟩ := ih h2 e3
    refine ⟨h1, ?_, d2.trans e2, d3, fun k => ?_⟩
    · simp only [heap.pushAll, e1, ok_bind]
      exact d1
    · rw [d4, e4]
      simp only [List.map_cons, List.mem_cons]
      tauto

/-- Pushing pairs with pairwise distinct keys, none of them stored yet, stores
exactly these pairs next to the ones already there. -/
theorem pushAll_distinct (pairs : List (K × V)) : ∀ (h : Heap K V),
    Consistent h.items h.lookup → (pairs.map Prod.fst).Nodup →
    (∀ k ∈ pairs.map Prod.fst, k ∉ h.items.map item.Key) →
    ∃ h1, pushAll h pairs = .ok h1 ∧ h1.cmp = h.cmp ∧ Consistent h1.items h1.lookup ∧
      (h1.items.map item.pair).Perm (pairs ++ h.items.map item.pair) ∧
      (TotalPreorder h.cmp → Ordered h.cmp h.items → Ordered h.cmp h1.items) := by
  induction pairs with
  | nil =>
    intro h C _ _
    exact ⟨h, rfl, rfl, C, by simp, fun _ ho => ho⟩
  | cons kv rest ih =>
    intro h C hn hfresh
    obtain ⟨key, value⟩ := kv
    simp only [List.map_cons, List.nodup_cons] at hn
    have hk : mapGet h.lookup key = none :=
      (C.get_eq_none_iff key).2 (hfresh key (by simp))
    obtain ⟨h2, e1, e2, e3, e4, e5, _⟩ := Push_spec h C key value
    have hperm := e5 hk
    have hfresh2 : ∀ k ∈ rest.map Prod.fst, k ∉ h2.items.map item.Key := by
      intro k hkr hmem
      rw [(hperm.map item.Key).mem_iff] at hmem
      simp only [List.map_cons, List.mem_cons] at hmem
      rcases hmem with hmem | hmem
      · rw [hmem] at hkr; exact hn.1 hkr
      · exact hfresh k (by simp only [List.map_cons, List.mem_cons]; exact Or.inr hkr) hmem
    obtain ⟨h1, d1, d2, d3, d4, d5⟩ := ih h2 e3 hn.2 hfresh2
    refine ⟨h1, ?_, d2.trans e2, d3, ?_, fun tp ho => ?_⟩
    · simp only [heap.pushAll, e1, ok_bind]
      exact d1
    · have a1 : (rest ++ h2.items.map item.pair).Perm
          (rest ++ (key, value) :: h.items.map item.pair) :=
        List.Perm.append_left rest (hperm.map item.pair)
      have a2 : (rest ++ (key, value) :: h.items.map item.pair).Perm
          ((key, value) :: (rest ++ h.items.map item.pair)) := List.perm_middle
      exact d4.trans (a1.trans a2)
    · have := d5 (by rw [e2]; exact tp) (by rw [e2]; exact e4 tp ho)
      rw [e2] at this
      exact this

theorem removeAll_spec (order : List K) : ∀ (h : Heap K V), Consistent h.items h.lookup →
    order.Nodup → (∀ k ∈ order, k ∈ h.items.map item.Key) →
    ∃ (h1 : Heap K V) (rs : List (Option V)), removeAll h order = .ok (h1, rs) ∧
      Consistent h1.items h1.lookup ∧
      List.Forall₂ (fun k r => ∃ v, r = some v ∧ (⟨k, v⟩ : item K V) ∈ h.items) order rs ∧
      h.items.length = h1.items.length + order.length := by
  induction order with
  | nil =>
    intro h C _ _
    exact ⟨h, [], rfl, C, List.Forall₂.nil, rfl⟩
  | cons k rest ih =>
    intro h C hn hall
    simp only [List.nodup_cons] at hn
    obtain ⟨it0, hit0, hk0⟩ := List.mem_map.1 (hall k (List.mem_cons_self _ _))
    have hm : (⟨k, it0.Value⟩ : item K V) ∈ h.items := by
      rw [← hk0]; exact hit0
    obtain ⟨h2, e1, _, e3, e4, _⟩ := Remove_of_mem h C hm
    have hall2 : ∀ k1 ∈ rest, k1 ∈ h2.items.map item.Key := by
      intro k1 hk1
      have := hall k1 (List.mem_cons_of_mem _ hk1)
      rw [(e4.map item.Key).mem_iff] at this
      simp only [List.map_cons, List.mem_cons] at this
      rcases this with hh | hh
      · rw [hh] at hk1; exact absurd hk1 hn.1
      · exact hh
    obtain ⟨h1, rs, d1, d2, d3, d4⟩ := ih h2 e3 hn.2 hall2
    refine ⟨h1, some it0.Value :: rs, ?_, d2, List.Forall₂.cons ⟨it0.Value, rfl, hm⟩ ?_, ?_⟩
    · simp only [heap.removeAll, e1, ok_bind, d1, pure_eq_ok]
    · refine d3.imp (fun k1 r hr => ?_)
      obtain ⟨v, hv, hmem⟩ := hr
      exact ⟨v, hv, e4.symm.subset (List.mem_cons_of_mem _ hmem)⟩
    · have := e4.length_eq
      simp only [List.length_cons] at this ⊢
      omega

theorem tensCmp_totalPreorder : TotalPreorder tensCmp := by
  constructor
  · intro a b
    unfold tensCmp intCmp
    split_ifs <;> omega
  · intro a b c
    unfold tensCmp intCmp
    split_ifs <;> omega

theorem exTens_reachable : Reachable tensCmp exTens :=
  Reachable.step (New tensCmp) exTens (.push "a" 10) Reachable.new rfl

theorem TotalPreorder.self_eq_zero {cmp : CompareFunc V} (tp : TotalPreorder cmp) (a : V) :
    cmp a a = 0 := by
  have := tp.opposite a a
  omega

/-! ## The claims -/

/-- C1: on every heap reachable from `New` under a consistent total preorder,
popping until `Len` is 0 succeeds, pops exactly `Len` pairs, empties the heap,
and each popped value is not greater than the one popped after it. -/
theorem C1_drain_nondecreasing (cmp : CompareFunc V) (h : Heap K V)
    (tp : TotalPreorder cmp) (hr : Reachable cmp h) :
    ∃ (h1 : Heap K V) (out : List (K × V)), drain h.Len h = .ok (h1, out.map some) ∧ h1.Len = 0 ∧ out.length = h.Len ∧
      List.Chain' (fun v w => cmp v.2 w.2 ≤ 0) out := by
  obtain ⟨e0, C, ho⟩ := hr.inv
  obtain ⟨h1, out, d1, _, d3, _, d5, d6⟩ := drain_spec h.Len h (Nat.le_refl _) C
  refine ⟨h1, out, d1, by simp [Heap.Len, d3], by simpa [Heap.Len] using d5.length_eq, ?_⟩
  have := d6 (by rw [e0]; exact tp) (by rw [e0]; exact ho tp)
  rw [e0] at this
  exact List.Pairwise.chain' this

/-- C1, the example of spec section 8: after pushing `a:5`, `b:1`, `c:3` three
pops return `(b,1)`, `(c,3)`, `(a,5)`. -/
theorem C1_drain_nondecreasing_witness :
    TotalPreorder intCmp ∧ Reachable intCmp exABC ∧
      (drain exABC.Len exABC).map Prod.snd =
        .ok [some ("b", 1), some ("c", 3), some ("a", 5)] ∧
      ∃ (h1 : Heap String Int) (out : List (String × Int)),
        drain exABC.Len exABC = .ok (h1, List.map some out) ∧ h1.Len = 0 ∧
        out.length = exABC.Len ∧ List.Chain' (fun v w => intCmp v.2 w.2 ≤ 0) out :=
  ⟨intCmp_totalPreorder, Reachable.pushAll _ Reachable.new exABC_pushed, rfl,
    C1_drain_nondecreasing intCmp exABC intCmp_totalPreorder
      (Reachable.pushAll _ Reachable.new exABC_pushed)⟩

/-- C2: on a heap satisfying the three invariants under a consistent total
preorder, `Peek` leaves the heap as it is and reports not-found exactly when
`Len` is 0; otherwise the pair it returns is stored in the heap, its value is
not greater than any stored value, and `Pop` returns that same pair. -/
theorem C2_peek_is_minimum (h : Heap K V) (tp : TotalPreorder h.cmp) (inv : Invariants h) :
    ∃ r, h.Peek = .ok (h, r) ∧ (r = none ↔ h.Len = 0) ∧
      ∀ k v, r = some (k, v) →
        (⟨k, v⟩ : item K V) ∈ h.items ∧ (∀ w ∈ h.items, h.cmp v w.Value ≤ 0) ∧
        ∃ h1, h.Pop = .ok (h1, some (k, v)) := by
  obtain ⟨ho, ic, _⟩ := inv
  have C := (indexConsistent_iff h).1 ic
  have ho1 := (heapOrder_iff h).1 ho
  cases hf : h.items[0]? with
  | none =>
    have he : h.items.length = 0 := by
      have := List.getElem?_eq_none_iff.1 hf
      omega
    exact ⟨none, Peek_empty h he, by simp [Heap.Len, he], fun k v hr => by cases hr⟩
  | some first =>
    have hpos := lt_of_getElem?_eq_some hf
    refine ⟨some (first.Key, first.Value), Peek_nonempty h hf, ?_, fun k v hr => ?_⟩
    · constructor
      · intro hn; cases hn
      · intro hl
        simp only [Heap.Len] at hl
        omega
    · simp only [Option.some.injEq, Prod.mk.injEq] at hr
      obtain ⟨hk, hv⟩ := hr
      subst hk; subst hv
      refine ⟨List.mem_iff_getElem?.2 ⟨0, hf⟩, fun w hw => ?_, ?_⟩
      · obtain ⟨n, hn⟩ := List.mem_iff_getElem?.1 hw
        exact ho1.root_le tp hf n w hn
      · obtain ⟨h1, e1, _⟩ := Pop_spec h C hf
        exact ⟨h1, e1⟩

/-- C2 on the heap holding `a:5`, `b:1`, `c:3`. -/
theorem C2_peek_is_minimum_witness :
    TotalPreorder exABC.cmp ∧ Invariants exABC ∧
      ∃ r, exABC.Peek = .ok (exABC, r) ∧ (r = none ↔ exABC.Len = 0) ∧
        ∀ k v, r = some (k, v) →
          (⟨k, v⟩ : item String Int) ∈ exABC.items ∧
          (∀ w ∈ exABC.items, exABC.cmp v w.Value ≤ 0) ∧
          ∃ h1, exABC.Pop = .ok (h1, some (k, v)) :=
  ⟨intCmp_totalPreorder, by decide,
    C2_peek_is_minimum exABC intCmp_totalPreorder (by decide)⟩

/-- C3: on a heap satisfying heap order and index consistency under a
consistent total preorder, `Remove` of any present key succeeds and leaves a
heap that again satisfies heap order, wherever the key was stored. -/
theorem C3_remove_keeps_heap_order (h : Heap K V) (tp : TotalPreorder h.cmp)
    (ho : HeapOrder h) (ic : IndexConsistent h) (k : K) (hk : (h.Has k).2 = true) :
    ∃ h1 v, h.Remove k = .ok (h1, some v) ∧ HeapOrder h1 := by
  have C := (indexConsistent_iff h).1 ic
  simp only [Heap.Has, Option.isSome_iff_exists] at hk
  obtain ⟨index, hidx⟩ := hk
  obtain ⟨it, h1, _, _, e1, e2, _, _, e5⟩ := Remove_spec h C hidx
  refine ⟨h1, it.Value, e1, (heapOrder_iff h1).2 ?_⟩
  rw [e2]
  exact e5 tp ((heapOrder_iff h).1 ho)

/-- C3 on an interior removal: removing `d` from the seven-pair heap moves
`g:4` under the greater parent `b:10`, and the single sift-up repairs it. -/
theorem C3_remove_keeps_heap_order_witness :
    TotalPreorder exSeven.cmp ∧ HeapOrder exSeven ∧ IndexConsistent exSeven ∧
      (exSeven.Has "d").2 = true ∧
      (exSeven.Remove "d").map (fun r => (r.1.items, r.2)) =
        .ok ([⟨"a", 1⟩, ⟨"g", 4⟩, ⟨"c", 2⟩, ⟨"b", 10⟩, ⟨"e", 12⟩, ⟨"f", 3⟩], some 11) ∧
      ∃ h1 v, exSeven.Remove "d" = .ok (h1, some v) ∧ HeapOrder h1 :=
  ⟨intCmp_totalPreorder, by decide, by decide, by decide, rfl,
    C3_remove_keeps_heap_order exSeven intCmp_totalPreorder (by decide) (by decide) "d"
      (by decide)⟩

/-- C4: the heap returned by `New` satisfies heap order, and on a heap that
satisfies heap order and index consistency under a consistent total preorder,
`Push` of any key and value (fresh, present with an equal value, or present
with a different one), `Pop` and `Clear` succeed and leave a heap satisfying
heap order. -/
theorem C4_heap_order_invariant (h : Heap K V) (tp : TotalPreorder h.cmp)
    (ho : HeapOrder h) (ic : IndexConsistent h) :
    (∀ c : CompareFunc V, HeapOrder (New c : Heap K V)) ∧
      (∀ k v, ∃ h1, h.Push k v = .ok h1 ∧ HeapOrder h1) ∧
      (∃ h1 r, h.Pop = .ok (h1, r) ∧ HeapOrder h1) ∧
      HeapOrder h.Clear := by
  have C := (indexConsistent_iff h).1 ic
  have ho1 := (heapOrder_iff h).1 ho
  refine ⟨fun c => ?_, fun k v => ?_, ?_, ?_⟩
  · rw [heapOrder_iff]
    exact Ordered.empty
  · obtain ⟨h1, e1, e2, _, e4, _⟩ := Push_spec h C k v
    refine ⟨h1, e1, (heapOrder_iff h1).2 ?_⟩
    rw [e2]
    exact e4 tp ho1
  · obtain ⟨h1, e1, e2, _, e4⟩ := Call.run_spec h C .pop
    cases hp : h.Pop with
    | error e => simp [Call.run, hp] at e1
    | ok res =>
      obtain ⟨h2, r⟩ := res
      simp only [Call.run, hp, map_ok, Except.ok.injEq] at e1
      subst e1
      refine ⟨h2, r, rfl, (heapOrder_iff h2).2 ?_⟩
      rw [e2]
      exact e4 tp ho1
  · obtain ⟨e1, _, e3⟩ := Clear_spec h C
    rw [heapOrder_iff, e1]
    exact Ordered.empty

/-- C4 on the seven-pair heap: a push below the root, a push of a present key
with a different value, and a pop. -/
theorem C4_heap_order_invariant_witness :
    TotalPreorder exSeven.cmp ∧ HeapOrder exSeven ∧ IndexConsistent exSeven ∧
      (exSeven.Push "h" 0).map Heap.items =
        .ok [⟨"h", 0⟩, ⟨"a", 1⟩, ⟨"c", 2⟩, ⟨"b", 10⟩, ⟨"e", 12⟩, ⟨"f", 3⟩, ⟨"g", 4⟩, ⟨"d", 11⟩] ∧
      (exSeven.Push "b" 0).map Heap.items =
        .ok [⟨"b", 0⟩, ⟨"g", 4⟩, ⟨"a", 1⟩, ⟨"d", 11⟩, ⟨"e", 12⟩, ⟨"f", 3⟩, ⟨"c", 2⟩] ∧
      ((∀ c : CompareFunc Int, HeapOrder (New c : Heap String Int)) ∧
        (∀ k v, ∃ h1, exSeven.Push k v = .ok h1 ∧ HeapOrder h1) ∧
        (∃ h1 r, exSeven.Pop = .ok (h1, r) ∧ HeapOrder h1) ∧
        HeapOrder exSeven.Clear) :=
  ⟨intCmp_totalPreorder, by decide, by decide, rfl, rfl,
    C4_heap_order_invariant exSeven intCmp_totalPreorder (by decide) (by decide)⟩

/-- C5: in every state reachable from `New`, whatever the comparator, the
lookup map and the items agree: index consistency and size agreement hold, no
key occurs at two positions, `lookup[k] = j` exactly when position `j` holds
key `k`, every position is the image of a key, and `Len` is the number of
lookup entries. Every public call then succeeds and leaves such a state, and
`Peek`, `Has` and `Get` leave the state as it is. -/
theorem C5_index_consistency_invariant (cmp : CompareFunc V) (h : Heap K V)
    (hr : Reachable cmp h) :
    IndexConsistent h ∧ SizeAgree h ∧ h.lookup.length = h.Len ∧
      (h.items.map item.Key).Nodup ∧
      (∀ k j, mapGet h.lookup k = some j ↔
        (j < h.items.length ∧ ∃ it, h.items[j]? = some it ∧ it.Key = k)) ∧
      (∀ j, j < h.items.length → ∃ k, mapGet h.lookup k = some j) ∧
      (∀ c : Call K V, ∃ h1, c.run h = .ok h1 ∧ IndexConsistent h1 ∧ SizeAgree h1) ∧
      Call.run h .peek = .ok h ∧
      (∀ k, Call.run h (.has k) = .ok h ∧ Call.run h (.get k) = .ok h) := by
  obtain ⟨_, C, _⟩ := hr.inv
  refine ⟨(indexConsistent_iff h).2 C, C.length_eq, C.length_eq, C.keys_nodup,
    fun k j => ?_, fun j hj => ?_, fun c => ?_, ?_, fun k => ⟨rfl, ?_⟩⟩
  · rw [C.2 k j]
    constructor
    · rintro ⟨it, hit, hk⟩
      exact ⟨lt_of_getElem?_eq_some hit, it, hit, hk⟩
    · rintro ⟨_, it, hit, hk⟩
      exact ⟨it, hit, hk⟩
  · obtain ⟨it, hit⟩ := getElem?_isSome_of_lt hj
    exact ⟨it.Key, C.get_of hit⟩
  · obtain ⟨h1, e1, _, e3, _⟩ := Call.run_spec h C c
    exact ⟨h1, e1, (indexConsistent_iff h1).2 e3, e3.length_eq⟩
  · cases hf : h.items[0]? with
    | none =>
      have he : h.items.length = 0 := by
        have := List.getElem?_eq_none_iff.1 hf
        omega
      simp [Call.run, Peek_empty h he]
    | some first => simp [Call.run, Peek_nonempty h hf]
  · cases hk : mapGet h.lookup k with
    | none => simp [Call.run, Get_absent h k hk]
    | some index =>
      obtain ⟨it, _, _, hg⟩ := Get_present h C hk
      simp [Call.run, hg]

/-- C5 on the heap reached by pushing `a:5`, `b:1`, `c:3`. -/
theorem C5_index_consistency_invariant_witness :
    Reachable intCmp exABC ∧ exABC.Len = 3 ∧
      (IndexConsistent exABC ∧ SizeAgree exABC ∧ exABC.lookup.length = exABC.Len ∧
        (exABC.items.map item.Key).Nodup ∧
        (∀ k j, mapGet exABC.lookup k = some j ↔
          (j < exABC.items.length ∧ ∃ it, exABC.items[j]? = some it ∧ it.Key = k)) ∧
        (∀ j, j < exABC.items.length → ∃ k, mapGet exABC.lookup k = some j) ∧
        (∀ c : Call String Int,
          ∃ h1, c.run exABC = .ok h1 ∧ IndexConsistent h1 ∧ SizeAgree h1) ∧
        Call.run exABC .peek = .ok exABC ∧
        (∀ k, Call.run exABC (.has k) = .ok exABC ∧ Call.run exABC (.get k) = .ok exABC)) :=
  ⟨Reachable.pushAll _ Reachable.new exABC_pushed, rfl,
    C5_index_consistency_invariant intCmp exABC
      (Reachable.pushAll _ Reachable.new exABC_pushed)⟩

/-- C6: after pushing pairs with pairwise distinct keys into a new heap, and
for every order of these keys, removing the keys in that order succeeds, each
`Remove` returns found with the value pushed for its key, and `Len` is 0 at
the end. It holds for every comparator. -/
theorem C6_remove_returns_pushed_value (cmp : CompareFunc V) (pairs : List (K × V))
    (order : List K) (hn : (pairs.map Prod.fst).Nodup) (hp : order.Perm (pairs.map Prod.fst)) :
    ∃ h : Heap K V, pushAll (New cmp) pairs = .ok h ∧
      ∃ (h1 : Heap K V) (rs : List (Option V)), removeAll h order = .ok (h1, rs) ∧
        List.Forall₂ (fun k r => ∃ v, r = some v ∧ (k, v) ∈ pairs) order rs ∧ h1.Len = 0 := by
  obtain ⟨h, e1, _, e3, e4, _⟩ := pushAll_distinct pairs (New cmp : Heap K V) Consistent.nil hn
    (fun k _ hk => by simp [New] at hk)
  have e4a : (h.items.map item.pair).Perm pairs := by simpa [New] using e4
  have hkeys : (h.items.map item.Key).Perm (pairs.map Prod.fst) := by
    have := e4a.map Prod.fst
    simpa [List.map_map, Function.comp_def, item.pair] using this
  obtain ⟨h1, rs, d1, _, d3, d4⟩ := removeAll_spec order h e3 (hp.nodup_iff.2 hn)
    (fun k hk => hkeys.symm.subset (hp.subset hk))
  refine ⟨h, e1, h1, rs, d1, d3.imp (fun k r hr => ?_), ?_⟩
  · obtain ⟨v, hv, hmem⟩ := hr
    refine ⟨v, hv, e4a.subset ?_⟩
    exact List.mem_map.2 ⟨⟨k, v⟩, hmem, rfl⟩
  · have a1 := hkeys.length_eq
    have a2 := hp.length_eq
    simp only [List.length_map] at a1 a2
    simp only [Heap.Len]
    omega

/-- C6 on the pairs `a:5`, `b:1`, `c:3` removed in the order `c`, `a`, `b`. -/
theorem C6_remove_returns_pushed_value_witness :
    (removeAll exABC ["c", "a", "b"]).map Prod.snd = .ok [some 3, some 5, some 1] ∧
      ∃ h : Heap String Int, pushAll (New intCmp) [("a", 5), ("b", 1), ("c", 3)] = .ok h ∧
        ∃ (h1 : Heap String Int) (rs : List (Option Int)),
          removeAll h ["c", "a", "b"] = .ok (h1, rs) ∧
          List.Forall₂ (fun k r => ∃ v, r = some v ∧ (k, v) ∈ [("a", 5), ("b", 1), ("c", 3)])
            ["c", "a", "b"] rs ∧ h1.Len = 0 :=
  ⟨rfl, C6_remove_returns_pushed_value intCmp [("a", 5), ("b", 1), ("c", 3)] ["c", "a", "b"]
    (by decide) (by decide)⟩

/-- C7: after pushing N pairs with pairwise distinct keys into a new heap,
popping until `Len` is 0 performs N pops, each of them returns found, the
popped pairs are a permutation of the pushed pairs, and the heap is empty.
Under a consistent total preorder the popped values are in ascending order. -/
theorem C7_drain_is_permutation (cmp : CompareFunc V) (pairs : List (K × V))
    (hn : (pairs.map Prod.fst).Nodup) :
    ∃ h : Heap K V, pushAll (New cmp) pairs = .ok h ∧ h.Len = pairs.length ∧
      ∃ (h1 : Heap K V) (out : List (K × V)), drain h.Len h = .ok (h1, out.map some) ∧
        out.length = pairs.length ∧ out.Perm pairs ∧ h1.Len = 0 ∧
        (TotalPreorder cmp → (out.map Prod.snd).Pairwise (fun v w => cmp v w ≤ 0)) := by
  obtain ⟨h, e1, e2, e3, e4, e5⟩ := pushAll_distinct pairs (New cmp : Heap K V) Consistent.nil hn
    (fun k _ hk => by simp [New] at hk)
  have e4a : (h.items.map item.pair).Perm pairs := by simpa [New] using e4
  have hlen : h.Len = pairs.length := by simpa [Heap.Len] using e4a.length_eq
  have hcmp : h.cmp = cmp := e2
  obtain ⟨h1, out, d1, _, d3, _, d5, d6⟩ := drain_spec h.Len h (Nat.le_refl _) e3
  refine ⟨h, e1, hlen, h1, out, d1, ?_, d5.trans e4a, by simp [Heap.Len, d3], fun tp => ?_⟩
  · rw [(d5.trans e4a).length_eq]
  · have ho : Ordered h.cmp h.items := by
      rw [hcmp]
      exact e5 tp Ordered.empty
    have := d6 (by rw [hcmp]; exact tp) ho
    rw [hcmp] at this
    exact List.pairwise_map.2 this

/-- C7 on the pairs `a:5`, `b:1`, `c:3`. -/
theorem C7_drain_is_permutation_witness :
    (drain exABC.Len exABC).map Prod.snd = .ok [some ("b", 1), some ("c", 3), some ("a", 5)] ∧
      ∃ h : Heap String Int, pushAll (New intCmp) [("a", 5), ("b", 1), ("c", 3)] = .ok h ∧
        h.Len = 3 ∧
        ∃ (h1 : Heap String Int) (out : List (String × Int)),
          drain h.Len h = .ok (h1, out.map some) ∧ out.length = 3 ∧
          out.Perm [("a", 5), ("b", 1), ("c", 3)] ∧ h1.Len = 0 ∧
          (TotalPreorder intCmp → (out.map Prod.snd).Pairwise (fun v w => intCmp v w ≤ 0)) :=
  ⟨rfl, C7_drain_is_permutation intCmp [("a", 5), ("b", 1), ("c", 3)] (by decide)⟩

/-- C8, the claim as stated fails: under `tensCmp`, with `a:10` stored,
`Push("a", 11)` changes nothing and `Get("a")` still returns 10, not 11. -/
theorem C8_get_after_push_counterexample :
    TotalPreorder tensCmp ∧ Reachable tensCmp exTens ∧
      exTens.Push "a" 11 = .ok exTens ∧ exTens.Get "a" = .ok (exTens, some 10) ∧
      ¬ ∃ h1, exTens.Push "a" 11 = .ok h1 ∧ h1.Get "a" = .ok (h1, some 11) := by
  refine ⟨tensCmp_totalPreorder, exTens_reachable, rfl, rfl, ?_⟩
  rintro ⟨h1, hp, hg⟩
  have hp1 : exTens.Push "a" 11 = .ok exTens := rfl
  rw [hp1] at hp
  have hh : exTens = h1 := Except.ok.inj hp
  subst hh
  have hg1 : exTens.Get "a" = .ok (exTens, some 10) := rfl
  rw [hg1] at hg
  have h2 : (some (10 : Int)) = some 11 := (Prod.mk.inj (Except.ok.inj hg)).2
  exact absurd (Option.some.inj h2) (by decide)

/-- C8 as amended: on every heap reachable from `New`, after `Push(k, v)` a
`Get(k)` returns found with a value `w`, and a `Remove(k)` performed afterwards
returns found with that same `w`; `w` is the value stored before the call when
`k` was present with a value comparing equal to `v`, and `v` itself otherwise;
under a consistent total preorder `cmp(w, v) = 0`. -/
theorem C8_get_after_push (cmp : CompareFunc V) (h : Heap K V) (k : K) (v : V)
    (hr : Reachable cmp h) :
    ∃ h1 w, h.Push k v = .ok h1 ∧ h1.Get k = .ok (h1, some w) ∧
      (∃ h2, h1.Remove k = .ok (h2, some w)) ∧
      (∀ u, h.Get k = .ok (h, some u) → cmp u v = 0 → w = u) ∧
      ((∀ u, h.Get k = .ok (h, some u) → cmp u v ≠ 0) → w = v) ∧
      (TotalPreorder cmp → cmp w v = 0) := by
  obtain ⟨hcmp, C, _⟩ := hr.inv
  obtain ⟨h1, e1, _, e3, _, e5, e6⟩ := Push_spec h C k v
  have fresh : (⟨k, v⟩ : item K V) ∈ h1.items →
      h1.Get k = .ok (h1, some v) ∧ ∃ h2, h1.Remove k = .ok (h2, some v) := by
    intro hm
    obtain ⟨h2, r1, _⟩ := Remove_of_mem h1 e3 hm
    exact ⟨Get_of_mem h1 e3 hm, h2, r1⟩
  cases hk : mapGet h.lookup k with
  | none =>
    have hm : (⟨k, v⟩ : item K V) ∈ h1.items := (e5 hk).symm.subset (List.mem_cons_self _ _)
    refine ⟨h1, v, e1, (fresh hm).1, (fresh hm).2, fun u hu _ => ?_, fun _ => rfl,
      fun tp => tp.self_eq_zero v⟩
    rw [Get_absent h k hk] at hu
    have := (Prod.mk.inj (Except.ok.inj hu)).2
    cases this
  | some index =>
    obtain ⟨it, hit, hkey, hg⟩ := Get_present h C hk
    obtain ⟨a1, a2⟩ := e6 index it hk hit
    by_cases hz : h.cmp it.Value v = 0
    · have hh := a1 hz
      subst hh
      have hm : (⟨k, it.Value⟩ : item K V) ∈ h1.items := by
        rw [← hkey]; exact List.mem_iff_getElem?.2 ⟨index, hit⟩
      obtain ⟨h2, r1, _⟩ := Remove_of_mem h1 e3 hm
      refine ⟨h1, it.Value, e1, hg, ⟨h2, r1⟩, fun u hu _ => ?_, fun hne => ?_, fun _ => ?_⟩
      · rw [hg] at hu
        exact Option.some.inj (Prod.mk.inj (Except.ok.inj hu)).2
      · exact absurd (by rw [← hcmp]; exact hz) (hne it.Value hg)
      · rw [← hcmp]; exact hz
    · have hm := (a2 hz).2
      refine ⟨h1, v, e1, (fresh hm).1, (fresh hm).2, fun u hu hu0 => ?_, fun _ => rfl,
        fun tp => tp.self_eq_zero v⟩
      rw [hg] at hu
      have hu1 : it.Value = u := Option.some.inj (Prod.mk.inj (Except.ok.inj hu)).2
      rw [← hu1, ← hcmp] at hu0
      exact absurd hu0 hz

/-- C8 as amended, on the heap holding `a:10` under `tensCmp`: after
`Push("a", 11)` both `Get("a")` and `Remove("a")` return the stored 10. -/
theorem C8_get_after_push_witness :
    Reachable tensCmp exTens ∧
      ∃ h1 w, exTens.Push "a" 11 = .ok h1 ∧ h1.Get "a" = .ok (h1, some w) ∧
        (∃ h2, h1.Remove "a" = .ok (h2, some w)) ∧
        (∀ u, exTens.Get "a" = .ok (exTens, some u) → tensCmp u 11 = 0 → w = u) ∧
        ((∀ u, exTens.Get "a" = .ok (exTens, some u) → tensCmp u 11 ≠ 0) → w = 11) ∧
        (TotalPreorder tensCmp → tensCmp w 11 = 0) :=
  ⟨exTens_reachable, C8_get_after_push tensCmp exTens "a" 11 exTens_reachable⟩

/-- C9: after any finite sequence of `Push` calls on a new heap, `Len` is the
number of distinct keys in the sequence, whatever the values and the
comparator are. -/
theorem C9_len_counts_distinct_keys (cmp : CompareFunc V) (pairs : List (K × V)) :
    ∃ h : Heap K V, pushAll (New cmp) pairs = .ok h ∧
      h.Len = (pairs.map Prod.fst).dedup.length := by
  obtain ⟨h, e1, _, e3, e4⟩ := pushAll_keys pairs (New cmp : Heap K V) Consistent.nil
  refine ⟨h, e1, ?_⟩
  have hp : (h.items.map item.Key).Perm (pairs.map Prod.fst).dedup := by
    rw [List.perm_ext_iff_of_nodup e3.keys_nodup (List.nodup_dedup _)]
    intro k
    rw [e4 k, List.mem_dedup]
    simp [New]
  simpa [Heap.Len] using hp.length_eq

/-- C10: on a heap satisfying the invariants, `Remove` of a present key returns
found, after which `Has` of that key is false, `Get` of it returns not-found,
and `Len` is exactly one less than before. -/
theorem C10_remove_forgets_key (h : Heap K V) (inv : Invariants h) (k : K)
    (hk : (h.Has k).2 = true) :
    ∃ h1 v, h.Remove k = .ok (h1, some v) ∧ (h1.Has k).2 = false ∧
      h1.Get k = .ok (h1, none) ∧ h1.Len + 1 = h.Len := by
  have C := (indexConsistent_iff h).1 inv.2.1
  simp only [Heap.Has, Option.isSome_iff_exists] at hk
  obtain ⟨index, hidx⟩ := hk
  obtain ⟨it, h1, _, hkey, e1, _, e3, e4, _⟩ := Remove_spec h C hidx
  have hnone : mapGet h1.lookup k = none := by
    have := C.get_none_of_perm e3 e4
    rw [hkey] at this
    exact this
  refine ⟨h1, it.Value, e1, by simp [Heap.Has, hnone], Get_absent h1 k hnone, ?_⟩
  have := e4.length_eq
  simp only [List.length_cons] at this
  simp only [Heap.Len]
  omega

/-- C10 on the seven-pair heap and the interior key `d`. -/
theorem C10_remove_forgets_key_witness :
    Invariants exSeven ∧ (exSeven.Has "d").2 = true ∧
      ∃ h1 v, exSeven.Remove "d" = .ok (h1, some v) ∧ (h1.Has "d").2 = false ∧
        h1.Get "d" = .ok (h1, none) ∧ h1.Len + 1 = exSeven.Len :=
  ⟨by decide, by decide, C10_remove_forgets_key exSeven (by decide) "d" (by decide)⟩

/-- C11: on an index-consistent heap, `Pop` on an empty heap and `Remove` on
an empty heap or of an absent key return not-found and the very same heap, so
items and lookup are untouched; `Pop` on a non-empty heap and `Remove` of a
present key return found. -/
theorem C11_not_found_mutates_nothing (h : Heap K V) (ic : IndexConsistent h) :
    (h.Len = 0 → h.Pop = .ok (h, none) ∧ ∀ k, h.Remove k = .ok (h, none)) ∧
      (∀ k, (h.Has k).2 = false → h.Remove k = .ok (h, none)) ∧
      (0 < h.Len → ∃ h1 kv, h.Pop = .ok (h1, some kv)) ∧
      (∀ k, (h.Has k).2 = true → ∃ h1 v, h.Remove k = .ok (h1, some v)) := by
  have C := (indexConsistent_iff h).1 ic
  refine ⟨fun h0 => ⟨Pop_empty h h0, fun k => ?_⟩, fun k hk => ?_, fun hpos => ?_, fun k hk => ?_⟩
  · refine Remove_absent h k ((C.get_eq_none_iff k).2 ?_)
    have : h.items = [] := List.length_eq_zero.1 h0
    simp [this]
  · refine Remove_absent h k ?_
    simp only [Heap.Has] at hk
    cases hg : mapGet h.lookup k with
    | none => rfl
    | some j => simp [hg] at hk
  · obtain ⟨first, hf⟩ := getElem?_isSome_of_lt hpos
    obtain ⟨h1, e1, _⟩ := Pop_spec h C hf
    exact ⟨h1, _, e1⟩
  · simp only [Heap.Has, Option.isSome_iff_exists] at hk
    obtain ⟨index, hidx⟩ := hk
    obtain ⟨it, h1, _, _, e1, _⟩ := Remove_spec h C hidx
    exact ⟨h1, it.Value, e1⟩

/-- C11 on the empty heap and on the seven-pair heap. -/
theorem C11_not_found_mutates_nothing_witness :
    IndexConsistent exSeven ∧ (exSeven.Has "z").2 = false ∧
      exSeven.Remove "z" = .ok (exSeven, none) ∧
      (New intCmp : Heap String Int).Pop = .ok (New intCmp, none) ∧
      ((exSeven.Len = 0 → exSeven.Pop = .ok (exSeven, none) ∧
          ∀ k, exSeven.Remove k = .ok (exSeven, none)) ∧
        (∀ k, (exSeven.Has k).2 = false → exSeven.Remove k = .ok (exSeven, none)) ∧
        (0 < exSeven.Len → ∃ h1 kv, exSeven.Pop = .ok (h1, some kv)) ∧
        (∀ k, (exSeven.Has k).2 = true → ∃ h1 v, exSeven.Remove k = .ok (h1, some v))) :=
  ⟨by decide, by decide, rfl, rfl, C11_not_found_mutates_nothing exSeven (by decide)⟩

theorem Push_noop (g : Heap K V) (k : K) (u v : V) (hg : g.Get k = .ok (g, some u))
    (hz : g.cmp u v = 0) : g.Push k v = .ok g := by
  unfold Heap.Get at hg
  cases hm : mapGet g.lookup k with
  | none =>
    simp only [hm, pure_eq_ok, Except.ok.injEq, Prod.mk.injEq] at hg
    cases hg.2
  | some index =>
    simp only [hm] at hg
    cases hi : getAt g.items index with
    | error e =>
      rw [hi] at hg
      cases hg
    | ok it =>
      rw [hi] at hg
      simp only [ok_bind, pure_eq_ok, Except.ok.injEq, Prod.mk.injEq, Option.some.injEq,
        true_and] at hg
      simp [Heap.Push, hm, hi, hg, hz]

/-- C12: on a heap satisfying the invariants, for a key `k` stored with value
`u` and a value `v` with `cmp(u, v) != 0`, `Push(k, v)` succeeds and leaves
exactly the heap that `Remove(k)` followed by `Push(k, v)`, which then takes
the fresh-key path, leaves; `Len` is unchanged and `Get(k)` returns `v`. -/
theorem C12_push_replaces_like_remove_then_push (h : Heap K V) (inv : Invariants h) (k : K)
    (u v : V) (hu : h.Get k = .ok (h, some u)) (hne : h.cmp u v ≠ 0) :
    ∃ h1 h2, h.Remove k = .ok (h1, some u) ∧ (h1.Has k).2 = false ∧
      h1.Push k v = .ok h2 ∧ h1.pushBack k v = .ok h2 ∧
      h.Push k v = .ok h2 ∧ h.removeThenPush k v = h.Push k v ∧
      h2.Len = h.Len ∧ h2.Get k = .ok (h2, some v) := by
  have C := (indexConsistent_iff h).1 inv.2.1
  cases hk : mapGet h.lookup k with
  | none =>
    rw [Get_absent h k hk] at hu
    cases (Prod.mk.inj (Except.ok.inj hu)).2
  | some index =>
    obtain ⟨it, h1, hit, hkey, e1, _, e3, e4, _⟩ := Remove_spec h C hk
    obtain ⟨it1, hit1, _, hg⟩ := Get_present h C hk
    rw [hit] at hit1
    cases hit1
    rw [hg] at hu
    have huv : it.Value = u := Option.some.inj (Prod.mk.inj (Except.ok.inj hu)).2
    subst huv
    have hnone : mapGet h1.lookup k = none := by
      have := C.get_none_of_perm e3 e4
      rw [hkey] at this
      exact this
    obtain ⟨h2, p1, _, p3, p4, _⟩ := pushBack_spec h1 e3 v hnone
    have hpush1 : h1.Push k v = .ok h2 := by
      simp only [Heap.Push, hnone]
      exact p1
    have hpush : h.Push k v = .ok h2 := by
      simp only [Heap.Push, hk, getAt_eq_ok hit, ok_bind, hne, if_false, e1]
      exact p1
    refine ⟨h1, h2, e1, by simp [Heap.Has, hnone], hpush1, p1, hpush, ?_, ?_, ?_⟩
    · rw [hpush]
      simp only [Heap.removeThenPush, e1, ok_bind]
      exact hpush1
    · have a1 := e4.length_eq
      have a2 := p4.length_eq
      simp only [List.length_cons] at a1 a2
      simp only [Heap.Len]
      omega
    · exact Get_of_mem h2 p3 (p4.symm.subset (List.mem_cons_self _ _))

/-- C12 on the seven-pair heap: `Push("b", 0)` replaces `b:10`. -/
theorem C12_push_replaces_like_remove_then_push_witness :
    Invariants exSeven ∧ exSeven.Get "b" = .ok (exSeven, some 10) ∧ exSeven.cmp 10 0 ≠ 0 ∧
      (exSeven.Push "b" 0).map Heap.items =
        .ok [⟨"b", 0⟩, ⟨"g", 4⟩, ⟨"a", 1⟩, ⟨"d", 11⟩, ⟨"e", 12⟩, ⟨"f", 3⟩, ⟨"c", 2⟩] ∧
      ∃ h1 h2, exSeven.Remove "b" = .ok (h1, some 10) ∧ (h1.Has "b").2 = false ∧
        h1.Push "b" 0 = .ok h2 ∧ h1.pushBack "b" 0 = .ok h2 ∧
        exSeven.Push "b" 0 = .ok h2 ∧ exSeven.removeThenPush "b" 0 = exSeven.Push "b" 0 ∧
        h2.Len = exSeven.Len ∧ h2.Get "b" = .ok (h2, some 0) :=
  ⟨by decide, rfl, by decide, rfl,
    C12_push_replaces_like_remove_then_push exSeven (by decide) "b" 10 0 rfl (by decide)⟩

/-- C13: on a heap reachable from `New` under a consistent total preorder, a
second `Push(k, v)` right after `Push(k, v)` returns the very same heap, items
and lookup included; and on any heap where `k` is stored with a value `u` such
that `cmp(u, v) = 0`, `Push(k, v)` returns the heap as it is. -/
theorem C13_push_idempotent (cmp : CompareFunc V) (h : Heap K V) (k : K) (v : V)
    (tp : TotalPreorder cmp) (hr : Reachable cmp h) :
    (∃ h1, h.Push k v = .ok h1 ∧ h1.Push k v = .ok h1 ∧
        (h.Push k v >>= fun h2 => h2.Push k v) = h.Push k v) ∧
      (∀ (g : Heap K V) (u : V), g.Get k = .ok (g, some u) → g.cmp u v = 0 →
        g.Push k v = .ok g) := by
  obtain ⟨hcmp, C, _⟩ := hr.inv
  obtain ⟨h1, e1, e2, e3, _, e5, e6⟩ := Push_spec h C k v
  have fresh : (⟨k, v⟩ : item K V) ∈ h1.items → h1.Push k v = .ok h1 := by
    intro hm
    refine Push_noop h1 k v v (Get_of_mem h1 e3 hm) ?_
    rw [e2, hcmp]
    exact tp.self_eq_zero v
  have second : h1.Push k v = .ok h1 := by
    cases hk : mapGet h.lookup k with
    | none => exact fresh ((e5 hk).symm.subset (List.mem_cons_self _ _))
    | some index =>
      obtain ⟨it, hit, _⟩ := (C.2 k index).1 hk
      obtain ⟨a1, a2⟩ := e6 index it hk hit
      by_cases hz : h.cmp it.Value v = 0
      · have hh := a1 hz
        rw [hh]
        rw [hh] at e1
        exact e1
      · exact fresh (a2 hz).2
  refine ⟨⟨h1, e1, second, ?_⟩, fun g u hg hz => Push_noop g k u v hg hz⟩
  rw [e1, ok_bind]
  exact second

/-- C13 on the heap holding `a:5`, `b:1`, `c:3`: pushing `d:2` twice. -/
theorem C13_push_idempotent_witness :
    TotalPreorder intCmp ∧ Reachable intCmp exABC ∧
      (exABC.Push "d" 2 >>= fun h2 => h2.Push "d" 2) = exABC.Push "d" 2 ∧
      ((∃ h1, exABC.Push "d" 2 = .ok h1 ∧ h1.Push "d" 2 = .ok h1 ∧
          (exABC.Push "d" 2 >>= fun h2 => h2.Push "d" 2) = exABC.Push "d" 2) ∧
        (∀ (g : Heap String Int) (u : Int), g.Get "d" = .ok (g, some u) → g.cmp u 2 = 0 →
          g.Push "d" 2 = .ok g)) :=
  ⟨intCmp_totalPreorder, Reachable.pushAll _ Reachable.new exABC_pushed, rfl,
    C13_push_idempotent intCmp exABC "d" 2 intCmp_totalPreorder
      (Reachable.pushAll _ Reachable.new exABC_pushed)⟩

theorem exBad_pushed :
    pushAll (New alwaysGreater) [("a", 1), ("b", 2)] = .ok exBad := rfl

theorem alwaysGreater_reachable : Reachable alwaysGreater exBad :=
  Reachable.pushAll _ Reachable.new exBad_pushed

/-- C14: in every state reachable from `New`, whatever the comparator is, no
call fails: every public call returns normally, so every slice access it and
the two repair walks make is in range, every position stored in the lookup map
is below `len(items)`, and the state it leaves is reachable again. -/
theorem C14_no_crash_for_any_comparator (cmp : CompareFunc V) (h : Heap K V)
    (hr : Reachable cmp h) :
    (∀ c : Call K V, ∃ h1, c.run h = .ok h1 ∧ Reachable cmp h1) ∧
      (∀ k v, ∃ h1, h.Push k v = .ok h1) ∧
      (∃ h1 r, h.Pop = .ok (h1, r)) ∧
      (∃ r, h.Peek = .ok (h, r)) ∧
      (∀ k, ∃ r, h.Get k = .ok (h, r)) ∧
      (∀ k, ∃ h1 r, h.Remove k = .ok (h1, r)) ∧
      (∀ k j, mapGet h.lookup k = some j → j < h.items.length) ∧
      (∀ i, i < h.items.length → ∃ h1, h.siftUp i = .ok h1) ∧
      (∀ i, ∃ h1, h.siftDown i = .ok h1) := by
  obtain ⟨_, C, _⟩ := hr.inv
  refine ⟨fun c => ?_, fun k v => ?_, ?_, ?_, fun k => ?_, fun k => ?_, fun k j hj => ?_,
    fun i hi => ?_, fun i => ?_⟩
  · obtain ⟨h1, e1, _⟩ := Call.run_spec h C c
    exact ⟨h1, e1, Reachable.step h h1 c hr e1⟩
  · obtain ⟨h1, e1, _⟩ := Push_spec h C k v
    exact ⟨h1, e1⟩
  · cases hf : h.items[0]? with
    | none =>
      have he : h.items.length = 0 := by
        have := List.getElem?_eq_none_iff.1 hf
        omega
      exact ⟨h, none, Pop_empty h he⟩
    | some first =>
      obtain ⟨h1, e1, _⟩ := Pop_spec h C hf
      exact ⟨h1, _, e1⟩
  · cases hf : h.items[0]? with
    | none =>
      have he : h.items.length = 0 := by
        have := List.getElem?_eq_none_iff.1 hf
        omega
      exact ⟨none, Peek_empty h he⟩
    | some first => exact ⟨_, Peek_nonempty h hf⟩
  · cases hk : mapGet h.lookup k with
    | none => exact ⟨none, Get_absent h k hk⟩
    | some index =>
      obtain ⟨it, _, _, hg⟩ := Get_present h C hk
      exact ⟨_, hg⟩
  · cases hk : mapGet h.lookup k with
    | none => exact ⟨h, none, Remove_absent h k hk⟩
    | some index =>
      obtain ⟨it, h1, _, _, e1, _⟩ := Remove_spec h C hk
      exact ⟨h1, _, e1⟩
  · obtain ⟨it, hit, _⟩ := (C.2 k j).1 hj
    exact lt_of_getElem?_eq_some hit
  · obtain ⟨h1, e1, _⟩ := siftUp_spec h i hi C
    exact ⟨h1, e1⟩
  · obtain ⟨h1, e1, _⟩ := siftDown_spec h i C
    exact ⟨h1, e1⟩

/-- C14 under `alwaysGreater`, which is no preorder: the heap reached by two
pushes has lost heap order, and every call on it still returns normally. -/
theorem C14_no_crash_for_any_comparator_witness :
    ¬ TotalPreorder alwaysGreater ∧ Reachable alwaysGreater exBad ∧ ¬ HeapOrder exBad ∧
      ((∀ c : Call String Int, ∃ h1, c.run exBad = .ok h1 ∧ Reachable alwaysGreater h1) ∧
        (∀ k v, ∃ h1, exBad.Push k v = .ok h1) ∧
        (∃ h1 r, exBad.Pop = .ok (h1, r)) ∧
        (∃ r, exBad.Peek = .ok (exBad, r)) ∧
        (∀ k, ∃ r, exBad.Get k = .ok (exBad, r)) ∧
        (∀ k, ∃ h1 r, exBad.Remove k = .ok (h1, r)) ∧
        (∀ k j, mapGet exBad.lookup k = some j → j < exBad.items.length) ∧
        (∀ i, i < exBad.items.length → ∃ h1, exBad.siftUp i = .ok h1) ∧
        (∀ i, ∃ h1, exBad.siftDown i = .ok h1)) :=
  ⟨fun tp => absurd (tp.self_eq_zero 0) (by decide), alwaysGreater_reachable, by decide,
    C14_no_crash_for_any_comparator alwaysGreater exBad alwaysGreater_reachable⟩

theorem Clear_items (h : Heap K V) : h.Clear.items = [] := by
  unfold Heap.Clear
  by_cases hl : h.items.length > 0
  · simp [hl]
  · simp only [hl, if_false]
    exact List.length_eq_zero.1 (by omega)

theorem Push_on_new (c : CompareFunc V) (k : K) (v : V) :
    (New c : Heap K V).Push k v = .ok { items := [⟨k, v⟩], lookup := [(k, 0)], cmp := c } := by
  simp [Heap.Push, New, mapGet, Heap.pushBack, Heap.siftUp, Heap.siftUpLoop, mapSet, mapDelete]

/-- C15: on every heap state, that is every index-consistent state and so every
state reachable from `New`, after `Clear` the heap is in the state of a new
heap: `Len` is 0, `Has(k)` is false and `Get(k)` returns not-found for every
key, `Peek` and `Pop` return not-found, and the three invariants hold; `Clear`
on an already empty heap leaves the state as it is; and a `Push(k, v)` after
`Clear` behaves as on a new heap: `Len` becomes 1 and `Peek` returns `(k, v)`. -/
theorem C15_clear_resets (h : Heap K V) (ic : IndexConsistent h) :
    h.Clear.Len = 0 ∧
      (∀ k, (h.Clear.Has k).2 = false ∧ h.Clear.Get k = .ok (h.Clear, none)) ∧
      h.Clear.Peek = .ok (h.Clear, none) ∧ h.Clear.Pop = .ok (h.Clear, none) ∧
      Invariants h.Clear ∧
      (h.Len = 0 → h.Clear = h) ∧
      h.Clear = New h.cmp ∧
      (∀ k v, ∃ h1, h.Clear.Push k v = .ok h1 ∧ (New h.cmp : Heap K V).Push k v = .ok h1 ∧
        h1.Len = 1 ∧ h1.Peek = .ok (h1, some (k, v))) := by
  have hi := Clear_items h
  have hlen : h.Clear.items.length = 0 := by rw [hi]; rfl
  have C := (indexConsistent_iff h).1 ic
  obtain ⟨e1, e2, e3⟩ := Clear_spec h C
  have hnew : h.Clear = New h.cmp := by
    rcases hC : h.Clear with ⟨its, lk, c⟩
    rw [hC] at e1 e2 e3
    simp only at e1 e2 e3
    subst e1; subst e2; subst e3
    rfl
  refine ⟨hlen, fun k => ?_, Peek_empty _ hlen, Pop_empty _ hlen, ?_, fun h0 => ?_, hnew,
    fun k v => ?_⟩
  · rw [hnew]
    exact ⟨rfl, rfl⟩
  · rw [hnew]
    refine ⟨?_, ?_, rfl⟩
    · rw [heapOrder_iff]
      exact Ordered.empty
    · rw [indexConsistent_iff]
      exact Consistent.nil
  · unfold Heap.Clear
    have : ¬ h.items.length > 0 := by
      simp only [Heap.Len] at h0
      omega
    simp [this]
  · rw [hnew]
    exact ⟨_, Push_on_new h.cmp k v, Push_on_new h.cmp k v, rfl, rfl⟩

/-- C15 on the seven-pair heap, with `Clear` on the already empty new heap and
a `Push("x", 9)` after `Clear` evaluated. -/
theorem C15_clear_resets_witness :
    IndexConsistent exSeven ∧
      (New intCmp : Heap String Int).Clear = New intCmp ∧
      (exSeven.Clear.Push "x" 9).map (fun h1 => (h1.items, h1.lookup)) =
        .ok ([⟨"x", 9⟩], [("x", 0)]) ∧
      (exSeven.Clear.Len = 0 ∧
        (∀ k, (exSeven.Clear.Has k).2 = false ∧ exSeven.Clear.Get k = .ok (exSeven.Clear, none)) ∧
        exSeven.Clear.Peek = .ok (exSeven.Clear, none) ∧
        exSeven.Clear.Pop = .ok (exSeven.Clear, none) ∧
        Invariants exSeven.Clear ∧
        (exSeven.Len = 0 → exSeven.Clear = exSeven) ∧
        exSeven.Clear = New exSeven.cmp ∧
        (∀ k v, ∃ h1, exSeven.Clear.Push k v = .ok h1 ∧
          (New exSeven.cmp : Heap String Int).Push k v = .ok h1 ∧
          h1.Len = 1 ∧ h1.Peek = .ok (h1, some (k, v)))) :=
  ⟨by decide, rfl, rfl, C15_clear_resets exSeven (by decide)⟩

/-! ## One iteration of `siftDown` -/

theorem TotalPreorder.lt_of_lt_of_le {cmp : CompareFunc V} (tp : TotalPreorder cmp) {a b c : V}
    (hab : cmp a b < 0) (hbc : cmp b c ≤ 0) : cmp a c < 0 := by
  by_contra hn
  have h1 : cmp c a ≤ 0 := tp.le_of_not_lt hn
  have h2 : cmp b a ≤ 0 := tp.trans _ _ _ hbc h1
  have h3 := (tp.opposite b a).2 hab
  omega

/-- The loop body of `siftDown` is the selection followed by the swap. -/
theorem siftDownLoop_succ (h : Heap K V) (fuel size i : Nat) (hi : i < size) :
    Heap.siftDownLoop (fuel + 1) size h i =
      (h.siftDownSelect size i >>= fun m =>
        if m = i then .ok h else h.swapItems i m >>= fun h2 => Heap.siftDownLoop fuel size h2 m) := by
  simp only [Heap.siftDownLoop, Heap.siftDownSelect, hi, if_true]
  split_ifs <;> simp only [bind_assoc, pure_bind, pure_eq_ok, ok_bind]

/-- The decision tree of the selection, read off the comparisons the code makes. -/
theorem siftDownSelect_cases (h : Heap K V) (size i : Nat) (hs : size = h.items.length)
    {x : item K V} (hx : h.items[i]? = some x) :
    ∃ m, h.siftDownSelect size i = .ok m ∧
      ((m = i ∧ (∀ l, h.items[2 * i + 1]? = some l → ¬ h.cmp l.Value x.Value < 0) ∧
          (∀ r, h.items[2 * i + 2]? = some r → ¬ h.cmp r.Value x.Value < 0)) ∨
        (m = 2 * i + 1 ∧ ∃ l, h.items[2 * i + 1]? = some l ∧ h.cmp l.Value x.Value < 0 ∧
          (∀ r, h.items[2 * i + 2]? = some r → ¬ h.cmp r.Value l.Value < 0)) ∨
        (m = 2 * i + 2 ∧ ∃ l r, h.items[2 * i + 1]? = some l ∧ h.items[2 * i + 2]? = some r ∧
          h.cmp l.Value x.Value < 0 ∧ h.cmp r.Value l.Value < 0) ∨
        (m = 2 * i + 2 ∧ ∃ l r, h.items[2 * i + 1]? = some l ∧ h.items[2 * i + 2]? = some r ∧
          ¬ h.cmp l.Value x.Value < 0 ∧ h.cmp r.Value x.Value < 0)) := by
  by_cases hL : 2 * i + 1 < size
  · obtain ⟨l, hl⟩ := getElem?_isSome_of_lt (show 2 * i + 1 < h.items.length by omega)
    by_cases hlx : h.cmp l.Value x.Value < 0
    · by_cases hR : 2 * i + 2 < size
      · obtain ⟨r, hr⟩ := getElem?_isSome_of_lt (show 2 * i + 2 < h.items.length by omega)
        by_cases hrl : h.cmp r.Value l.Value < 0
        · refine ⟨2 * i + 2, ?_, Or.inr (Or.inr (Or.inl ⟨rfl, l, r, hl, hr, hlx, hrl⟩))⟩
          simp [Heap.siftDownSelect, hL, hR, getAt_eq_ok hl, getAt_eq_ok hx, getAt_eq_ok hr,
            hlx, hrl]
        · refine ⟨2 * i + 1, ?_, Or.inr (Or.inl ⟨rfl, l, hl, hlx, fun r1 hr1 => ?_⟩)⟩
          · simp [Heap.siftDownSelect, hL, hR, getAt_eq_ok hl, getAt_eq_ok hx, getAt_eq_ok hr,
              hlx, hrl]
          · rw [hr] at hr1; cases hr1; exact hrl
      · refine ⟨2 * i + 1, ?_, Or.inr (Or.inl ⟨rfl, l, hl, hlx, fun r1 hr1 => ?_⟩)⟩
        · simp [Heap.siftDownSelect, hL, hR, getAt_eq_ok hl, getAt_eq_ok hx, hlx]
        · have := lt_of_getElem?_eq_some hr1
          omega
    · by_cases hR : 2 * i + 2 < size
      · obtain ⟨r, hr⟩ := getElem?_isSome_of_lt (show 2 * i + 2 < h.items.length by omega)
        by_cases hrx : h.cmp r.Value x.Value < 0
        · refine ⟨2 * i + 2, ?_, Or.inr (Or.inr (Or.inr ⟨rfl, l, r, hl, hr, hlx, hrx⟩))⟩
          simp [Heap.siftDownSelect, hL, hR, getAt_eq_ok hl, getAt_eq_ok hx, getAt_eq_ok hr,
            hlx, hrx]
        · refine ⟨i, ?_, Or.inl ⟨rfl, fun l1 hl1 => ?_, fun r1 hr1 => ?_⟩⟩
          · simp [Heap.siftDownSelect, hL, hR, getAt_eq_ok hl, getAt_eq_ok hx, getAt_eq_ok hr,
              hlx, hrx]
          · rw [hl] at hl1; cases hl1; exact hlx
          · rw [hr] at hr1; cases hr1; exact hrx
      · refine ⟨i, ?_, Or.inl ⟨rfl, fun l1 hl1 => ?_, fun r1 hr1 => ?_⟩⟩
        · simp [Heap.siftDownSelect, hL, hR, getAt_eq_ok hl, getAt_eq_ok hx, hlx]
        · rw [hl] at hl1; cases hl1; exact hlx
        · have := lt_of_getElem?_eq_some hr1
          omega
  · have hR : ¬ 2 * i + 2 < size := by omega
    refine ⟨i, ?_, Or.inl ⟨rfl, fun l1 hl1 => ?_, fun r1 hr1 => ?_⟩⟩
    · simp [Heap.siftDownSelect, hL, hR]
    · have := lt_of_getElem?_eq_some hl1
      omega
    · have := lt_of_getElem?_eq_some hr1
      omega

/-- C16: under a consistent total preorder, one iteration of the loop of
`siftDown` at a position `i` holding `x` selects a position `m`: `i` itself
exactly when no existing child is strictly smaller than `x`, in which case it
stops; otherwise an existing child that is strictly smaller than `x` and not
greater than any existing child, the right child only when it is strictly
smaller than the left one; it then swaps `i` and `m`, rewrites both lookup
entries and continues from `m`. Two children that compare equal and are both
strictly smaller than `x` send the walk to the left child. -/
theorem C16_siftDown_step_selects_min_child (h : Heap K V) (size i : Nat) (x : item K V)
    (tp : TotalPreorder h.cmp) (hs : size = h.items.length) (hx : h.items[i]? = some x) :
    ∃ m, h.siftDownSelect size i = .ok m ∧
      (∀ fuel, Heap.siftDownLoop (fuel + 1) size h i =
        if m = i then .ok h
        else h.swapItems i m >>= fun h2 => Heap.siftDownLoop fuel size h2 m) ∧
      (m = i ∨ m = 2 * i + 1 ∨ m = 2 * i + 2) ∧
      (m = i ↔ ∀ c w, (c = 2 * i + 1 ∨ c = 2 * i + 2) → h.items[c]? = some w →
        ¬ h.cmp w.Value x.Value < 0) ∧
      (m ≠ i → ∃ y, h.items[m]? = some y ∧ h.cmp y.Value x.Value < 0 ∧
        (∀ c w, (c = 2 * i + 1 ∨ c = 2 * i + 2) → h.items[c]? = some w →
          h.cmp y.Value w.Value ≤ 0) ∧
        h.swapItems i m = .ok { h with
          items := (h.items.set i y).set m x,
          lookup := mapSet (mapSet h.lookup y.Key i) x.Key m }) ∧
      (m = 2 * i + 2 → ∃ l r, h.items[2 * i + 1]? = some l ∧ h.items[2 * i + 2]? = some r ∧
        h.cmp r.Value l.Value < 0) ∧
      (∀ l r, h.items[2 * i + 1]? = some l → h.items[2 * i + 2]? = some r →
        h.cmp l.Value x.Value < 0 → h.cmp r.Value x.Value < 0 → h.cmp l.Value r.Value = 0 →
        m = 2 * i + 1) := by
  have hi : i < size := by rw [hs]; exact lt_of_getElem?_eq_some hx
  obtain ⟨m, hsel, hcase⟩ := siftDownSelect_cases h size i hs hx
  refine ⟨m, hsel, fun fuel => ?_, ?_⟩
  · rw [siftDownLoop_succ h fuel size i hi, hsel, ok_bind]
  rcases hcase with ⟨hm, hl0, hr0⟩ | ⟨hm, l, hl, hlx, hr0⟩ | ⟨hm, l, r, hl, hr, hlx, hrl⟩ |
    ⟨hm, l, r, hl, hr, hlx, hrx⟩
  · subst hm
    refine ⟨Or.inl rfl, ⟨fun _ c w hc hw => ?_, fun _ => rfl⟩, fun hne => absurd rfl hne,
      fun e => by omega, fun l r hl hr hlx _ _ => absurd hlx (hl0 l hl)⟩
    rcases hc with hc | hc
    · subst hc; exact hl0 w hw
    · subst hc; exact hr0 w hw
  · subst hm
    have hne : i ≠ 2 * i + 1 := by omega
    refine ⟨Or.inr (Or.inl rfl), ⟨fun e => by omega, fun hall => absurd hlx (hall _ l (Or.inl rfl) hl)⟩,
      fun _ => ⟨l, hl, hlx, fun c w hc hw => ?_, h.swapItems_eq hx hl hne⟩,
      fun e => by omega, fun _ _ _ _ _ _ _ => rfl⟩
    rcases hc with hc | hc
    · subst hc; rw [hl] at hw; cases hw; exact tp.refl _
    · subst hc; exact tp.le_of_not_lt (hr0 w hw)
  · subst hm
    have hne : i ≠ 2 * i + 2 := by omega
    have hrx : h.cmp r.Value x.Value < 0 := tp.lt_of_lt_of_le hrl (by omega)
    refine ⟨Or.inr (Or.inr rfl), ⟨fun e => by omega, fun hall => absurd hlx (hall _ l (Or.inl rfl) hl)⟩,
      fun _ => ⟨r, hr, hrx, fun c w hc hw => ?_, h.swapItems_eq hx hr hne⟩,
      fun _ => ⟨l, r, hl, hr, hrl⟩, fun l1 r1 hl1 hr1 _ _ hz => ?_⟩
    · rcases hc with hc | hc
      · subst hc; rw [hl] at hw; cases hw; omega
      · subst hc; rw [hr] at hw; cases hw; exact tp.refl _
    · rw [hl] at hl1; rw [hr] at hr1
      cases hl1; cases hr1
      have := tp.eq_zero_symm hz
      omega
  · subst hm
    have hne : i ≠ 2 * i + 2 := by omega
    have hxl : h.cmp x.Value l.Value ≤ 0 := tp.le_of_not_lt hlx
    have hrl : h.cmp r.Value l.Value < 0 := tp.lt_of_lt_of_le hrx hxl
    refine ⟨Or.inr (Or.inr rfl), ⟨fun e => by omega, fun hall => absurd hrx (hall _ r (Or.inr rfl) hr)⟩,
      fun _ => ⟨r, hr, hrx, fun c w hc hw => ?_, h.swapItems_eq hx hr hne⟩,
      fun _ => ⟨l, r, hl, hr, hrl⟩, fun l1 r1 hl1 _ hlx1 _ _ => ?_⟩
    · rcases hc with hc | hc
      · subst hc; rw [hl] at hw; cases hw; omega
      · subst hc; rw [hr] at hw; cases hw; exact tp.refl _
    · rw [hl] at hl1
      cases hl1
      exact absurd hlx1 hlx

/-- C16 on a root `a:25` with children `b:11` and `c:12` under `tensCmp`: both
are smaller than the root and compare equal, and the left child is selected. -/
theorem C16_siftDown_step_selects_min_child_witness :
    TotalPreorder exTie.cmp ∧ exTie.siftDownSelect 3 0 = .ok 1 ∧
      (exTie.siftDown 0).map Heap.items = .ok [⟨"b", 11⟩, ⟨"a", 25⟩, ⟨"c", 12⟩] ∧
      ∃ m, exTie.siftDownSelect 3 0 = .ok m ∧
        (∀ fuel, Heap.siftDownLoop (fuel + 1) 3 exTie 0 =
          if m = 0 then .ok exTie
          else exTie.swapItems 0 m >>= fun h2 => Heap.siftDownLoop fuel 3 h2 m) ∧
        (m = 0 ∨ m = 2 * 0 + 1 ∨ m = 2 * 0 + 2) ∧
        (m = 0 ↔ ∀ c w, (c = 2 * 0 + 1 ∨ c = 2 * 0 + 2) → exTie.items[c]? = some w →
          ¬ exTie.cmp w.Value (25 : Int) < 0) ∧
        (m ≠ 0 → ∃ y, exTie.items[m]? = some y ∧ exTie.cmp y.Value (25 : Int) < 0 ∧
          (∀ c w, (c = 2 * 0 + 1 ∨ c = 2 * 0 + 2) → exTie.items[c]? = some w →
            exTie.cmp y.Value w.Value ≤ 0) ∧
          exTie.swapItems 0 m = .ok { exTie with
            items := (exTie.items.set 0 y).set m ⟨"a", 25⟩,
            lookup := mapSet (mapSet exTie.lookup y.Key 0) "a" m }) ∧
        (m = 2 * 0 + 2 → ∃ l r, exTie.items[2 * 0 + 1]? = some l ∧
          exTie.items[2 * 0 + 2]? = some r ∧ exTie.cmp r.Value l.Value < 0) ∧
        (∀ l r, exTie.items[2 * 0 + 1]? = some l → exTie.items[2 * 0 + 2]? = some r →
          exTie.cmp l.Value (25 : Int) < 0 → exTie.cmp r.Value (25 : Int) < 0 →
          exTie.cmp l.Value r.Value = 0 → m = 2 * 0 + 1) :=
  ⟨tensCmp_totalPreorder, rfl, rfl,
    C16_siftDown_step_selects_min_child exTie 3 0 ⟨"a", 25⟩ tensCmp_totalPreorder rfl rfl⟩

/-! ## Termination of the loops on every state -/

section Termination

variable {α β : Type}

theorem Finishes.of_ok (a : α) : Finishes (Except.ok a : Except Fault α) := by
  intro hc; cases hc

theorem Finishes.of_panic : Finishes (Except.error Fault.indexOutOfRange : Except Fault α) := by
  intro hc; cases hc

theorem Finishes.bind_finishes {r : Except Fault α} {f : α → Except Fault β} (hr : Finishes r)
    (hf : ∀ a, r = .ok a → Finishes (f a)) : Finishes (r >>= f) := by
  cases r with
  | error e =>
    intro hc
    rw [error_bind] at hc
    cases hc
    exact hr rfl
  | ok a => exact hf a rfl

theorem Finishes.map_finishes {r : Except Fault α} (f : α → β) (hr : Finishes r) :
    Finishes (r.map f) := by
  cases r with
  | error e =>
    intro hc
    rw [map_error] at hc
    cases hc
    exact hr rfl
  | ok a => exact Finishes.of_ok _

theorem getAt_finishes (s : List α) (i : Nat) : Finishes (getAt s i) := by
  unfold getAt
  cases s[i]? with
  | none => exact Finishes.of_panic
  | some x => exact Finishes.of_ok _

theorem setAt_finishes (s : List α) (i : Nat) (x : α) : Finishes (setAt s i x) := by
  unfold setAt
  split
  · exact Finishes.of_ok _
  · exact Finishes.of_panic

end Termination

theorem swapItems_finishes (h : Heap K V) (i j : Nat) : Finishes (h.swapItems i j) := by
  unfold Heap.swapItems
  refine Finishes.bind_finishes (getAt_finishes _ _) (fun a _ => ?_)
  refine Finishes.bind_finishes (getAt_finishes _ _) (fun b _ => ?_)
  refine Finishes.bind_finishes (setAt_finishes _ _ _) (fun s1 _ => ?_)
  refine Finishes.bind_finishes (setAt_finishes _ _ _) (fun s2 _ => ?_)
  refine Finishes.bind_finishes (getAt_finishes _ _) (fun x _ => ?_)
  refine Finishes.bind_finishes (getAt_finishes _ _) (fun y _ => ?_)
  exact Finishes.of_ok _

theorem siftUpLoop_finishes (fuel : Nat) : ∀ (h : Heap K V) (i : Nat), i ≤ fuel →
    Finishes (Heap.siftUpLoop fuel h i) := by
  induction fuel with
  | zero =>
    intro h i hf
    have : ¬ i > 0 := by omega
    simp only [Heap.siftUpLoop, this, if_false]
    exact Finishes.of_ok _
  | succ fuel ih =>
    intro h i hf
    by_cases hi0 : i > 0
    · simp only [Heap.siftUpLoop, hi0, if_true]
      refine Finishes.bind_finishes (getAt_finishes _ _) (fun p _ => ?_)
      refine Finishes.bind_finishes (getAt_finishes _ _) (fun c _ => ?_)
      split
      · exact Finishes.of_ok _
      · refine Finishes.bind_finishes (swapItems_finishes _ _ _) (fun h2 _ => ?_)
        exact ih h2 _ (by omega)
    · simp only [Heap.siftUpLoop, hi0, if_false]
      exact Finishes.of_ok _

theorem bind_eq_ok {α β : Type} {r : Except Fault α} {f : α → Except Fault β} {b : β}
    (hb : (r >>= f) = .ok b) : ∃ a, r = .ok a ∧ f a = .ok b := by
  cases r with
  | error e => cases hb
  | ok a => exact ⟨a, rfl, hb⟩

/-- The selection of `siftDown` returns the position itself or one of its two children. -/
theorem siftDownSelect_range (h : Heap K V) (size i m : Nat)
    (hsel : h.siftDownSelect size i = .ok m) : m = i ∨ m = 2 * i + 1 ∨ m = 2 * i + 2 := by
  simp only [Heap.siftDownSelect, bind_assoc, pure_bind] at hsel
  by_cases hL : 2 * i + 1 < size <;> by_cases hR : 2 * i + 2 < size <;>
    simp only [hL, hR, if_true, if_false, bind_assoc, pure_bind] at hsel
  · obtain ⟨l, _, hsel⟩ := bind_eq_ok hsel
    obtain ⟨p, _, hsel⟩ := bind_eq_ok hsel
    obtain ⟨r, _, hsel⟩ := bind_eq_ok hsel
    obtain ⟨q, _, hsel⟩ := bind_eq_ok hsel
    simp only [pure_eq_ok, Except.ok.injEq] at hsel
    subst hsel
    split_ifs <;> simp
  · obtain ⟨l, _, hsel⟩ := bind_eq_ok hsel
    obtain ⟨p, _, hsel⟩ := bind_eq_ok hsel
    simp only [pure_eq_ok, Except.ok.injEq] at hsel
    subst hsel
    split_ifs <;> simp
  · obtain ⟨r, _, hsel⟩ := bind_eq_ok hsel
    obtain ⟨q, _, hsel⟩ := bind_eq_ok hsel
    simp only [pure_eq_ok, Except.ok.injEq] at hsel
    subst hsel
    split_ifs <;> simp
  · simp only [pure_eq_ok, Except.ok.injEq] at hsel
    exact Or.inl hsel.symm

theorem siftDownSelect_finishes (h : Heap K V) (size i : Nat) :
    Finishes (h.siftDownSelect size i) := by
  simp only [Heap.siftDownSelect, bind_assoc, pure_bind]
  by_cases hL : 2 * i + 1 < size <;> by_cases hR : 2 * i + 2 < size <;>
    simp only [hL, hR, if_true, if_false, bind_assoc, pure_bind]
  · refine Finishes.bind_finishes (getAt_finishes _ _) (fun l _ => ?_)
    refine Finishes.bind_finishes (getAt_finishes _ _) (fun p _ => ?_)
    refine Finishes.bind_finishes (getAt_finishes _ _) (fun r _ => ?_)
    refine Finishes.bind_finishes (getAt_finishes _ _) (fun q _ => ?_)
    exact Finishes.of_ok _
  · refine Finishes.bind_finishes (getAt_finishes _ _) (fun l _ => ?_)
    refine Finishes.bind_finishes (getAt_finishes _ _) (fun p _ => ?_)
    exact Finishes.of_ok _
  · refine Finishes.bind_finishes (getAt_finishes _ _) (fun r _ => ?_)
    refine Finishes.bind_finishes (getAt_finishes _ _) (fun q _ => ?_)
    exact Finishes.of_ok _
  · exact Finishes.of_ok _

theorem siftDownLoop_finishes (fuel : Nat) : ∀ (size : Nat) (h : Heap K V) (i : Nat),
    size - i ≤ fuel → Finishes (Heap.siftDownLoop fuel size h i) := by
  induction fuel with
  | zero =>
    intro size h i hf
    have : ¬ i < size := by omega
    simp only [Heap.siftDownLoop, this, if_false]
    exact Finishes.of_ok _
  | succ fuel ih =>
    intro size h i hf
    by_cases hi : i < size
    · rw [siftDownLoop_succ h fuel size i hi]
      refine Finishes.bind_finishes (siftDownSelect_finishes _ _ _) (fun m hm => ?_)
      have hrange := siftDownSelect_range h size i m hm
      split
      · exact Finishes.of_ok _
      · refine Finishes.bind_finishes (swapItems_finishes _ _ _) (fun h2 _ => ?_)
        exact ih size h2 m (by omega)
    · simp only [Heap.siftDownLoop, hi, if_false]
      exact Finishes.of_ok _

theorem siftUp_finishes (h : Heap K V) (i : Nat) : Finishes (h.siftUp i) :=
  siftUpLoop_finishes i h i (Nat.le_refl _)

theorem siftDown_finishes (h : Heap K V) (i : Nat) : Finishes (h.siftDown i) :=
  siftDownLoop_finishes h.items.length h.items.length h i (Nat.sub_le _ _)

theorem Pop_finishes (h : Heap K V) : Finishes h.Pop := by
  simp only [Heap.Pop]
  split
  · exact Finishes.of_ok _
  · refine Finishes.bind_finishes (getAt_finishes _ _) (fun first _ => ?_)
    split
    · exact Finishes.of_ok _
    · refine Finishes.bind_finishes (getAt_finishes _ _) (fun last _ => ?_)
      refine Finishes.bind_finishes (setAt_finishes _ _ _) (fun s1 _ => ?_)
      refine Finishes.bind_finishes (getAt_finishes _ _) (fun root _ => ?_)
      refine Finishes.bind_finishes (siftDown_finishes _ _) (fun h1 _ => ?_)
      exact Finishes.of_ok _

theorem Peek_finishes (h : Heap K V) : Finishes h.Peek := by
  simp only [Heap.Peek]
  split
  · exact Finishes.of_ok _
  · refine Finishes.bind_finishes (getAt_finishes _ _) (fun k _ => ?_)
    refine Finishes.bind_finishes (getAt_finishes _ _) (fun v _ => ?_)
    exact Finishes.of_ok _

theorem Get_finishes (h : Heap K V) (key : K) : Finishes (h.Get key) := by
  simp only [Heap.Get]
  split
  · refine Finishes.bind_finishes (getAt_finishes _ _) (fun it _ => ?_)
    exact Finishes.of_ok _
  · exact Finishes.of_ok _

theorem Remove_finishes (h : Heap K V) (key : K) : Finishes (h.Remove key) := by
  simp only [Heap.Remove]
  split
  · exact Finishes.of_ok _
  · split
    · refine Finishes.bind_finishes (Pop_finishes _) (fun r _ => ?_)
      exact Finishes.of_ok _
    · split
      · refine Finishes.bind_finishes (getAt_finishes _ _) (fun last _ => ?_)
        exact Finishes.of_ok _
      · refine Finishes.bind_finishes (getAt_finishes _ _) (fun it _ => ?_)
        refine Finishes.bind_finishes (getAt_finishes _ _) (fun last _ => ?_)
        refine Finishes.bind_finishes (setAt_finishes _ _ _) (fun s1 _ => ?_)
        refine Finishes.bind_finishes (getAt_finishes _ _) (fun moved _ => ?_)
        refine Finishes.bind_finishes (getAt_finishes _ _) (fun p _ => ?_)
        refine Finishes.bind_finishes (getAt_finishes _ _) (fun c _ => ?_)
        split
        · exact Finishes.bind_finishes (siftUp_finishes _ _) (fun h1 _ => Finishes.of_ok _)
        · exact Finishes.bind_finishes (siftDown_finishes _ _) (fun h1 _ => Finishes.of_ok _)

theorem pushBack_finishes (h : Heap K V) (key : K) (value : V) :
    Finishes (h.pushBack key value) := by
  unfold Heap.pushBack
  exact siftUp_finishes _ _

theorem Push_finishes (h : Heap K V) (key : K) (value : V) : Finishes (h.Push key value) := by
  simp only [Heap.Push]
  split
  · refine Finishes.bind_finishes (getAt_finishes _ _) (fun it _ => ?_)
    split
    · exact Finishes.of_ok _
    · refine Finishes.bind_finishes (Remove_finishes _ _) (fun r _ => ?_)
      exact pushBack_finishes _ _ _
  · exact pushBack_finishes _ _ _

theorem Call.run_finishes (h : Heap K V) (c : Call K V) : Finishes (c.run h) := by
  cases c with
  | push key value => exact Push_finishes h key value
  | pop => exact Finishes.map_finishes _ (Pop_finishes h)
  | peek => exact Finishes.map_finishes _ (Peek_finishes h)
  | has key => exact Finishes.of_ok _
  | get key => exact Finishes.map_finishes _ (Get_finishes h key)
  | remove key => exact Finishes.map_finishes _ (Remove_finishes h key)
  | clear => exact Finishes.of_ok _

/-- C17: on every heap state and for every comparator the two loops end within
their bound, `siftUp` within `index` iterations because each one moves to
`(index-1)/2`, `siftDown` within `size - index` iterations because each one
moves to `2*index+1` or `2*index+2`; so no public call runs forever: each
returns or stops with a run-time panic, and on every index-consistent state
each returns a result. -/
theorem C17_operations_terminate (h : Heap K V) (fuel size index : Nat) :
    (index ≤ fuel → Finishes (Heap.siftUpLoop fuel h index)) ∧
      (size - index ≤ fuel → Finishes (Heap.siftDownLoop fuel size h index)) ∧
      (∀ m, h.siftDownSelect size index = .ok m →
        m = index ∨ m = 2 * index + 1 ∨ m = 2 * index + 2) ∧
      Finishes (h.siftUp index) ∧ Finishes (h.siftDown index) ∧
      (∀ k v, Finishes (h.Push k v)) ∧ Finishes h.Pop ∧ (∀ k, Finishes (h.Remove k)) ∧
      Finishes h.Peek ∧ (∀ k, Finishes (h.Get k)) ∧
      (∀ c : Call K V, Finishes (c.run h)) ∧
      (IndexConsistent h → ∀ c : Call K V, ∃ h1, c.run h = .ok h1) := by
  refine ⟨siftUpLoop_finishes fuel h index, siftDownLoop_finishes fuel size h index,
    fun m hm => siftDownSelect_range h size index m hm, siftUp_finishes h index,
    siftDown_finishes h index, Push_finishes h, Pop_finishes h, Remove_finishes h,
    Peek_finishes h, Get_finishes h, Call.run_finishes h, fun ic c => ?_⟩
  obtain ⟨h1, e1, _⟩ := Call.run_spec h ((indexConsistent_iff h).1 ic) c
  exact ⟨h1, e1⟩

/-- C17 under `alwaysGreater`, which is no preorder, on the heap holding `b:2`
over `a:1`: the walks from position 1 end within one iteration. -/
theorem C17_operations_terminate_witness :
    1 ≤ 1 ∧ 2 - 1 ≤ 1 ∧ IndexConsistent exBad ∧
      ((1 ≤ 1 → Finishes (Heap.siftUpLoop 1 exBad 1)) ∧
        (2 - 1 ≤ 1 → Finishes (Heap.siftDownLoop 1 2 exBad 1)) ∧
        (∀ m, exBad.siftDownSelect 2 1 = .ok m → m = 1 ∨ m = 2 * 1 + 1 ∨ m = 2 * 1 + 2) ∧
        Finishes (exBad.siftUp 1) ∧ Finishes (exBad.siftDown 1) ∧
        (∀ k v, Finishes (exBad.Push k v)) ∧ Finishes exBad.Pop ∧
        (∀ k, Finishes (exBad.Remove k)) ∧
        Finishes exBad.Peek ∧ (∀ k, Finishes (exBad.Get k)) ∧
        (∀ c : Call String Int, Finishes (c.run exBad)) ∧
        (IndexConsistent exBad → ∀ c : Call String Int, ∃ h1, c.run exBad = .ok h1)) :=
  ⟨by decide, by decide, by decide, C17_operations_terminate exBad 1 2 1⟩

/-! ## Frame: the pairs of other keys -/

theorem filter_perm_of_cons {k : K} {a b : item K V} {l1 l2 : List (item K V)}
    (ha : a.Key = k) (hb : b.Key = k) (hp : (a :: l1).Perm (b :: l2)) :
    (l1.filter (fun it => decide (it.Key ≠ k))).Perm (l2.filter (fun it => decide (it.Key ≠ k))) := by
  have := hp.filter (fun it => decide (it.Key ≠ k))
  simpa [List.filter_cons, ha, hb] using this

theorem filter_perm_of_cons_left {k : K} {a : item K V} {l1 l2 : List (item K V)}
    (ha : a.Key = k) (hp : (a :: l1).Perm l2) :
    (l1.filter (fun it => decide (it.Key ≠ k))).Perm (l2.filter (fun it => decide (it.Key ≠ k))) := by
  have := hp.filter (fun it => decide (it.Key ≠ k))
  simpa [List.filter_cons, ha] using this

/-- What `Has` and `Get` say about a key depends only on the stored pairs of that key. -/
theorem frame_of_filter_perm {h h1 : Heap K V} (C : Consistent h.items h.lookup)
    (C1 : Consistent h1.items h1.lookup) {k k1 : K} (hne : k ≠ k1)
    (hp : (h1.items.filter (fun it => decide (it.Key ≠ k))).Perm
      (h.items.filter (fun it => decide (it.Key ≠ k)))) :
    (h1.Has k1).2 = (h.Has k1).2 ∧ (h1.Get k1).map Prod.snd = (h.Get k1).map Prod.snd := by
  have hiff : ∀ it : item K V, it.Key = k1 → (it ∈ h1.items ↔ it ∈ h.items) := by
    intro it hk
    have hd : decide (it.Key ≠ k) = true := by
      simp only [decide_eq_true_eq, hk]
      exact fun e => hne e.symm
    have := hp.mem_iff (a := it)
    simp only [List.mem_filter, hd, and_true] at this
    exact this
  cases hg : mapGet h.lookup k1 with
  | none =>
    have hg1 : mapGet h1.lookup k1 = none := by
      rw [C1.get_eq_none_iff]
      intro hm
      obtain ⟨it, hit, hk⟩ := List.mem_map.1 hm
      have := (hiff it hk).1 hit
      exact (C.get_eq_none_iff k1).1 hg (List.mem_map.2 ⟨it, this, hk⟩)
    simp [Heap.Has, hg, hg1, Get_absent h k1 hg, Get_absent h1 k1 hg1]
  | some index =>
    obtain ⟨it, hit, hk, hget⟩ := Get_present h C hg
    have hm : it ∈ h1.items := (hiff it hk).2 (List.mem_iff_getElem?.2 ⟨index, hit⟩)
    obtain ⟨j, hj⟩ := List.mem_iff_getElem?.1 hm
    have hg1 : mapGet h1.lookup k1 = some j := by
      rw [← hk]; exact C1.get_of hj
    obtain ⟨it1, hit1, _, hget1⟩ := Get_present h1 C1 hg1
    rw [hj] at hit1
    cases hit1
    simp [Heap.Has, hg, hg1, hget, hget1]

/-- C18: on an index-consistent heap, for keys `k != k1`: `Push(k, v)` and
`Remove(k)` succeed and leave `Has(k1)` and `Get(k1)` as they were, and a `Pop`
that returns key `k` does the same and makes `Has(k)` false; in each case the
stored pairs whose key is not `k` are the same multiset before and after. -/
theorem C18_other_keys_untouched (h : Heap K V) (ic : IndexConsistent h) (k k1 : K)
    (hne : k ≠ k1) :
    (∀ v, ∃ h1, h.Push k v = .ok h1 ∧
        (h1.Has k1).2 = (h.Has k1).2 ∧ (h1.Get k1).map Prod.snd = (h.Get k1).map Prod.snd ∧
        (h1.items.filter (fun it => decide (it.Key ≠ k))).Perm
          (h.items.filter (fun it => decide (it.Key ≠ k)))) ∧
      (∃ h1 r, h.Remove k = .ok (h1, r) ∧
        (h1.Has k1).2 = (h.Has k1).2 ∧ (h1.Get k1).map Prod.snd = (h.Get k1).map Prod.snd ∧
        (h1.items.filter (fun it => decide (it.Key ≠ k))).Perm
          (h.items.filter (fun it => decide (it.Key ≠ k)))) ∧
      (∀ h1 v, h.Pop = .ok (h1, some (k, v)) →
        (h1.Has k).2 = false ∧
        (h1.Has k1).2 = (h.Has k1).2 ∧ (h1.Get k1).map Prod.snd = (h.Get k1).map Prod.snd ∧
        (h1.items.filter (fun it => decide (it.Key ≠ k))).Perm
          (h.items.filter (fun it => decide (it.Key ≠ k)))) := by
  have C := (indexConsistent_iff h).1 ic
  refine ⟨fun v => ?_, ?_, fun h1 v hpop => ?_⟩
  · obtain ⟨h1, e1, _, e3, _, e5, e6⟩ := Push_spec h C k v
    have hp : (h1.items.filter (fun it => decide (it.Key ≠ k))).Perm
        (h.items.filter (fun it => decide (it.Key ≠ k))) := by
      cases hk : mapGet h.lookup k with
      | none => exact (filter_perm_of_cons_left rfl (e5 hk).symm).symm
      | some index =>
        obtain ⟨it, hit, hkey⟩ := (C.2 k index).1 hk
        obtain ⟨a1, a2⟩ := e6 index it hk hit
        by_cases hz : h.cmp it.Value v = 0
        · rw [a1 hz]
        · exact filter_perm_of_cons hkey rfl (a2 hz).1
    obtain ⟨f1, f2⟩ := frame_of_filter_perm C e3 hne hp
    exact ⟨h1, e1, f1, f2, hp⟩
  · cases hk : mapGet h.lookup k with
    | none =>
      exact ⟨h, none, Remove_absent h k hk, rfl, rfl, List.Perm.refl _⟩
    | some index =>
      obtain ⟨it, h1, _, hkey, e1, _, e3, e4, _⟩ := Remove_spec h C hk
      have hp := (filter_perm_of_cons_left hkey e4.symm)
      obtain ⟨f1, f2⟩ := frame_of_filter_perm C e3 hne hp
      exact ⟨h1, some it.Value, e1, f1, f2, hp⟩
  · cases hf : h.items[0]? with
    | none =>
      have he : h.items.length = 0 := by
        have := List.getElem?_eq_none_iff.1 hf
        omega
      rw [Pop_empty h he] at hpop
      cases (Prod.mk.inj (Except.ok.inj hpop)).2
    | some first =>
      obtain ⟨h2, e1, _, e3, e4, _⟩ := Pop_spec h C hf
      rw [e1] at hpop
      obtain ⟨hh, hr⟩ := Prod.mk.inj (Except.ok.inj hpop)
      subst hh
      have hkey : first.Key = k := (Prod.mk.inj (Option.some.inj hr)).1
      have hp := (filter_perm_of_cons_left hkey e4.symm)
      obtain ⟨f1, f2⟩ := frame_of_filter_perm C e3 hne hp
      have hnone : mapGet h2.lookup k = none := by
        have := C.get_none_of_perm e3 e4
        rw [hkey] at this
        exact this
      exact ⟨by simp [Heap.Has, hnone], f1, f2, hp⟩

/-- C18 on the seven-pair heap with `k = a`, the root, and `k1 = g`:
replacing, removing or popping `a` leaves `Get("g")` at 4. -/
theorem C18_other_keys_untouched_witness :
    IndexConsistent exSeven ∧ "a" ≠ "g" ∧
      (exSeven.Get "g").map Prod.snd = .ok (some 4) ∧
      exSeven.Pop.map Prod.snd = .ok (some ("a", 1)) ∧
      ((exSeven.Push "a" 7).bind fun h1 => (h1.Get "g").map Prod.snd) = .ok (some 4) ∧
      ((exSeven.Remove "a").bind fun r => (r.1.Get "g").map Prod.snd) = .ok (some 4) ∧
      ((∀ v, ∃ h1, exSeven.Push "a" v = .ok h1 ∧
          (h1.Has "g").2 = (exSeven.Has "g").2 ∧
          (h1.Get "g").map Prod.snd = (exSeven.Get "g").map Prod.snd ∧
          (h1.items.filter (fun it => decide (it.Key ≠ "a"))).Perm
            (exSeven.items.filter (fun it => decide (it.Key ≠ "a")))) ∧
        (∃ h1 r, exSeven.Remove "a" = .ok (h1, r) ∧
          (h1.Has "g").2 = (exSeven.Has "g").2 ∧
          (h1.Get "g").map Prod.snd = (exSeven.Get "g").map Prod.snd ∧
          (h1.items.filter (fun it => decide (it.Key ≠ "a"))).Perm
            (exSeven.items.filter (fun it => decide (it.Key ≠ "a")))) ∧
        (∀ h1 v, exSeven.Pop = .ok (h1, some ("a", v)) →
          (h1.Has "a").2 = false ∧
          (h1.Has "g").2 = (exSeven.Has "g").2 ∧
          (h1.Get "g").map Prod.snd = (exSeven.Get "g").map Prod.snd ∧
          (h1.items.filter (fun it => decide (it.Key ≠ "a"))).Perm
            (exSeven.items.filter (fun it => decide (it.Key ≠ "a"))))) :=
  ⟨by decide, by decide, rfl, rfl, rfl, rfl,
    C18_other_keys_untouched exSeven (by decide) "a" "g" (by decide)⟩

end heap
